import Mathlib

/-!
Extendible hash index and LRU replacer of `cmu_db`.

A shallow embedding of `cmudb::ExtendibleHash<K, V>` (`src/hash/extendible_hash.cpp`)
and of `cmudb::LRUReplacer<T>` (`src/buffer/lru_replacer.cpp`).

* `std::map<K, V>` is an association list; `find`, `operator[] =`, `erase` and
  `size` become `mapFind`, `mapSet`, `mapErase` and `List.length`.
* `std::shared_ptr<Bucket>` is an address (an index into `heap`, the list of
  all bucket objects allocated so far); `std::make_shared` allocates at the
  address `heap.length`, and pointer equality is equality of addresses, so
  directory slots that alias one bucket hold the same address.
* `std::hash<K>` is a parameter `hash : K → Nat`.
* The `int` shifts `1 << depth` of the source are taken on `Nat`; both agree as
  long as the depth stays below 31. `insertLoopInt` and `InsertInt` are the same
  loop with each shift checked against the range of the 32-bit `int`; whether
  `Insert` returns is stated on them.
* `Insert` loops (`while (true)`), so its model takes a bound on the number of
  loop iterations and answers `none` when the bound is exhausted.
* The `std::list<T>` of the replacer is a `List T`, front first; its counter `_sz`
  is a `Nat`, decremented only where the code has just found an element or tested
  the counter.
-/

namespace cmudb

universe u v

/-! ## `std::map<K, V>` -/

/-- The lookup `items.find(key)`, giving the mapped value when the key is present. -/
def mapFind {K : Type u} {V : Type v} [DecidableEq K] : List (K × V) → K → Option V
  | [], _ => none
  | (k', v') :: rest, k => if k' = k then some v' else mapFind rest k

/-- The assignment `items[key] = value`: overwrite the entry of `key`, or add one. -/
def mapSet {K : Type u} {V : Type v} [DecidableEq K] : List (K × V) → K → V → List (K × V)
  | [], k, v => [(k, v)]
  | (k', v') :: rest, k, v =>
      if k' = k then (k', v) :: rest else (k', v') :: mapSet rest k v

/-- The call `items.erase(key)`. -/
def mapErase {K : Type u} {V : Type v} [DecidableEq K] (items : List (K × V)) (k : K) :
    List (K × V) :=
  items.filter (fun p => p.1 ≠ k)

/-! ## Data model -/

/-- The bucket type `struct Bucket { int localDepth; std::map<K, V> items; }`. -/
structure Bucket (K : Type u) (V : Type v) where
  localDepth : Nat
  items : List (K × V)
  deriving DecidableEq, Repr

/-- The members of `ExtendibleHash<K, V>` (the mutex apart), together with the
bucket objects its shared pointers refer to. -/
structure ExtendibleHash (K : Type u) (V : Type v) where
  numBuckets_ : Nat
  globalDepth_ : Nat
  bucketSz_ : Nat
  bucketLists_ : List Nat
  heap : List (Bucket K V)
  deriving DecidableEq, Repr

namespace ExtendibleHash

variable {K : Type u} {V : Type v}

/-- Dereference `ptr->`: the bucket object stored at an address. An address
outside the heap, which no reachable state holds (`Inv.valid`), reads as an empty
bucket. -/
def deref (s : ExtendibleHash K V) (ptr : Nat) : Bucket K V :=
  s.heap.getD ptr ⟨0, []⟩

/-- The directory entry `bucketLists_[i]`. An index outside the directory, which
no call computes in a reachable state (`Inv.addr_lt`), reads as address 0. -/
def slot (s : ExtendibleHash K V) (i : Nat) : Nat :=
  s.bucketLists_.getD i 0

/-- The constructor `ExtendibleHash(size_t size)`. -/
def init (size : Nat) : ExtendibleHash K V :=
  { numBuckets_ := 0
    globalDepth_ := 0
    bucketSz_ := size
    bucketLists_ := [0]
    heap := [⟨0, []⟩] }

/-- The accessor `GetGlobalDepth()`. -/
def GetGlobalDepth (s : ExtendibleHash K V) : Nat := s.globalDepth_

/-- The accessor `GetLocalDepth(bucket_id)`. -/
def GetLocalDepth (s : ExtendibleHash K V) (bucket_id : Nat) : Nat :=
  (s.deref (s.slot bucket_id)).localDepth

/-- The accessor `GetNumBuckets()`. -/
def GetNumBuckets (s : ExtendibleHash K V) : Nat := s.numBuckets_

variable [DecidableEq K]

/-- The lookup `Find(key, value)`: `some value` for `true` with the out-parameter set,
`none` for `false`. The call writes no member. -/
def Find (hash : K → Nat) (s : ExtendibleHash K V) (key : K) : Option V :=
  let hash_key := hash key &&& ((1 <<< s.globalDepth_) - 1)
  let ptr := s.slot hash_key
  mapFind (s.deref ptr).items key

/-- The call `Remove(key)`: the returned flag and the state after the call. -/
def Remove (hash : K → Nat) (s : ExtendibleHash K V) (key : K) : Bool × ExtendibleHash K V :=
  let hash_key := hash key &&& ((1 <<< s.globalDepth_) - 1)
  let ptr := s.slot hash_key
  let b := s.deref ptr
  if (mapFind b.items key).isSome then
    (true, { s with heap := s.heap.set ptr { b with items := mapErase b.items key } })
  else
    (false, s)

/-- One pass through the split part of the loop body of `Insert` (source lines
107 to 129) for the full bucket at address `ptr`. -/
def splitStep (hash : K → Nat) (s : ExtendibleHash K V) (ptr : Nat) : ExtendibleHash K V :=
  let b := s.deref ptr
  let mask := 1 <<< b.localDepth
  let localDepth := b.localDepth + 1
  let grow := localDepth > s.globalDepth_
  let dir := if grow then s.bucketLists_ ++ s.bucketLists_ else s.bucketLists_
  let newBuc := s.heap.length
  let moved := b.items.filter (fun p => hash p.1 &&& mask ≠ 0)
  let kept := b.items.filter (fun p => ¬ (hash p.1 &&& mask ≠ 0))
  { numBuckets_ := s.numBuckets_ + 1
    globalDepth_ := if grow then s.globalDepth_ + 1 else s.globalDepth_
    bucketSz_ := s.bucketSz_
    bucketLists_ := dir.mapIdx (fun i q => if q = ptr ∧ i &&& mask ≠ 0 then newBuc else q)
    heap := s.heap.set ptr ⟨localDepth, kept⟩ ++ [⟨localDepth, moved⟩] }

/-- The `while (true)` loop of `Insert`, run for at most `fuel` iterations,
entered with the addressed bucket `ptr`. -/
def insertLoop (hash : K → Nat) (key : K) (value : V) :
    Nat → ExtendibleHash K V → Nat → Option (ExtendibleHash K V)
  | 0, _, _ => none
  | fuel + 1, s, ptr =>
      let b := s.deref ptr
      if (mapFind b.items key).isSome ∨ b.items.length < s.bucketSz_ then
        some { s with heap := s.heap.set ptr { b with items := mapSet b.items key value } }
      else
        let s1 := splitStep hash s ptr
        let hash_key := hash key &&& ((1 <<< s1.globalDepth_) - 1)
        insertLoop hash key value fuel s1 (s1.slot hash_key)

/-- The call `Insert(key, value)` with a bound on the loop iterations: `none` when
the loop has not reached its write branch within `fuel` iterations. -/
def Insert (hash : K → Nat) (fuel : Nat) (s : ExtendibleHash K V) (key : K) (value : V) :
    Option (ExtendibleHash K V) :=
  let hash_key := hash key &&& ((1 <<< s.globalDepth_) - 1)
  insertLoop hash key value fuel s (s.slot hash_key)

/-- A call that changes the index. -/
inductive Op (K : Type u) (V : Type v) where
  | insert (key : K) (value : V)
  | remove (key : K)

/-- The index states produced from the constructor with bucket capacity `size`
by a sequence of `Insert` and `Remove` calls that returned; `ops` lists the
calls, the most recent one first. -/
inductive ReachableBy (hash : K → Nat) (size : Nat) :
    List (Op K V) → ExtendibleHash K V → Prop
  | init : ReachableBy hash size [] (init size)
  | insert {ops : List (Op K V)} {s s' : ExtendibleHash K V} {fuel : Nat} {key : K}
      {value : V} :
      ReachableBy hash size ops s → Insert hash fuel s key value = some s' →
      ReachableBy hash size (Op.insert key value :: ops) s'
  | remove {ops : List (Op K V)} {s : ExtendibleHash K V} {key : K} :
      ReachableBy hash size ops s →
      ReachableBy hash size (Op.remove key :: ops) (Remove hash s key).2

/-- An index state reachable from the constructor by `Insert`/`Remove` calls. -/
def Reachable (hash : K → Nat) (size : Nat) (s : ExtendibleHash K V) : Prop :=
  ∃ ops : List (Op K V), ReachableBy hash size ops s

/-- Whether `key` is currently stored according to the call history (most
recent call first): its latest call is an `Insert`. -/
def storedBy : List (Op K V) → K → Bool
  | [], _ => false
  | Op.insert k _ :: ops, key => if k = key then true else storedBy ops key
  | Op.remove k :: ops, key => if k = key then false else storedBy ops key

/-- Structural invariant of the directory and of the buckets it references: the
directory has `2 ^ globalDepth_` slots, every slot holds an allocated address,
local depths are at most the global depth, buckets respect the capacity, every
stored key agrees with the index of its slot on the low `localDepth` bits of its
hash, slots that share a bucket agree on their low `localDepth` bits, and the keys
of a bucket are pairwise distinct. -/
structure Inv (hash : K → Nat) (s : ExtendibleHash K V) : Prop where
  dirLen : s.bucketLists_.length = 2 ^ s.globalDepth_
  valid : ∀ i, i < s.bucketLists_.length → s.slot i < s.heap.length
  depth : ∀ i, i < s.bucketLists_.length →
    (s.deref (s.slot i)).localDepth ≤ s.globalDepth_
  size : ∀ i, i < s.bucketLists_.length →
    (s.deref (s.slot i)).items.length ≤ s.bucketSz_
  addr : ∀ i, i < s.bucketLists_.length → ∀ e, e ∈ (s.deref (s.slot i)).items →
    hash e.1 % 2 ^ (s.deref (s.slot i)).localDepth
      = i % 2 ^ (s.deref (s.slot i)).localDepth
  share : ∀ i j, i < s.bucketLists_.length → j < s.bucketLists_.length →
    s.slot i = s.slot j →
    i % 2 ^ (s.deref (s.slot i)).localDepth = j % 2 ^ (s.deref (s.slot i)).localDepth
  nodup : ∀ i, i < s.bucketLists_.length →
    ((s.deref (s.slot i)).items.map Prod.fst).Nodup

/-- The number of distinct buckets the directory references. -/
def distinctBuckets (s : ExtendibleHash K V) : Nat :=
  s.bucketLists_.dedup.length

/-! ## Sample states -/

/-- The index of capacity 2 after `Insert(1, 10)`. -/
def sample1 : ExtendibleHash Nat Nat :=
  { numBuckets_ := 0
    globalDepth_ := 0
    bucketSz_ := 2
    bucketLists_ := [0]
    heap := [⟨0, [(1, 10)]⟩] }

/-- The index of capacity 2 after `Insert(1, 10)` and `Insert(2, 20)`. -/
def sample12 : ExtendibleHash Nat Nat :=
  { numBuckets_ := 0
    globalDepth_ := 0
    bucketSz_ := 2
    bucketLists_ := [0]
    heap := [⟨0, [(1, 10), (2, 20)]⟩] }

/-- The index `sample12` after `Insert(3, 30)`, which splits the first bucket. -/
def sample123 : ExtendibleHash Nat Nat :=
  { numBuckets_ := 1
    globalDepth_ := 1
    bucketSz_ := 2
    bucketLists_ := [0, 1]
    heap := [⟨1, [(2, 20)]⟩, ⟨1, [(1, 10), (3, 30)]⟩] }

/-- The index of capacity 1 after `Insert(0, 0)`. -/
def full1 : ExtendibleHash Nat Nat :=
  { numBuckets_ := 0
    globalDepth_ := 0
    bucketSz_ := 1
    bucketLists_ := [0]
    heap := [⟨0, [(0, 0)]⟩] }

/-- The calls that produce `sample12`, the most recent one first. -/
def ops12 : List (Op Nat Nat) := [Op.insert 2 20, Op.insert 1 10]

/-- Directory slots whose indexes agree on the low `localDepth` bits of the bucket
of one of them reference the same bucket. -/
def Alias (s : ExtendibleHash K V) : Prop :=
  ∀ i j, i < s.bucketLists_.length → j < s.bucketLists_.length →
    i % 2 ^ (s.deref (s.slot i)).localDepth = j % 2 ^ (s.deref (s.slot i)).localDepth →
    s.slot i = s.slot j

/-! ## The loop of `Insert` on the 32-bit `int` of the source -/

end ExtendibleHash

/-! ## The LRU replacer (`src/buffer/lru_replacer.cpp`) -/

/-- Modelled from the spec: the data members of `LRUReplacer<T>` (the mutex
apart), whose declaration in `buffer/lru_replacer.h` is not among the sources: the
recency list `_replacer`, least recently used value first, and the cached size
counter `_sz`. -/
structure LRUReplacer (T : Type u) where
  _replacer : List T
  _sz : Nat
  deriving DecidableEq, Repr

namespace LRUReplacer

variable {T : Type u} [DecidableEq T]

/-- The constructor `LRUReplacer()`. -/
def new : LRUReplacer T :=
  { _replacer := [], _sz := 0 }

/-- The call `Insert(value)`: the loop erases the first element equal to `value`
and appends `value`; when it finds none, `value` is appended and `_sz` grows. -/
def Insert (s : LRUReplacer T) (value : T) : LRUReplacer T :=
  if value ∈ s._replacer then
    { s with _replacer := s._replacer.erase value ++ [value] }
  else
    { _replacer := s._replacer ++ [value], _sz := s._sz + 1 }

/-- The call `Victim(value)`: `some (none, s)` for `false`, `some (some value, s')`
for `true` with the out-parameter set, and `none` when the call reads
`_replacer.front()` of an empty list, which is undefined. -/
def Victim (s : LRUReplacer T) : Option (Option T × LRUReplacer T) :=
  if s._sz = 0 then some (none, s)
  else
    match s._replacer with
    | [] => none
    | value :: rest => some (some value, { _replacer := rest, _sz := s._sz - 1 })

/-- The call `Erase(value)`: the returned flag and the state after the call. The
decrement `_sz--` runs only after an element was found. -/
def Erase (s : LRUReplacer T) (value : T) : Bool × LRUReplacer T :=
  if value ∈ s._replacer then
    (true, { _replacer := s._replacer.erase value, _sz := s._sz - 1 })
  else
    (false, s)

/-- The call `Size()`. -/
def Size (s : LRUReplacer T) : Nat := s._sz

/-- The replacer states produced from the empty replacer by `Insert`, `Victim` and
`Erase` calls. -/
inductive Reachable : LRUReplacer T → Prop
  | init : Reachable new
  | insert {s : LRUReplacer T} (value : T) : Reachable s → Reachable (Insert s value)
  | victim {s s' : LRUReplacer T} {r : Option T} :
      Reachable s → Victim s = some (r, s') → Reachable s'
  | erase {s : LRUReplacer T} (value : T) : Reachable s → Reachable (Erase s value).2

/-- A run of `Insert` calls, one for each value of the list in order. -/
def insertAll (s : LRUReplacer T) (values : List T) : LRUReplacer T :=
  values.foldl Insert s

/-- A run of `n` consecutive `Victim` calls: the results in order and the final
state. -/
def victims : Nat → LRUReplacer T → Option (List (Option T) × LRUReplacer T)
  | 0, s => some ([], s)
  | n + 1, s =>
      match Victim s with
      | none => none
      | some (r, s') =>
          match victims n s' with
          | none => none
          | some (rs, s'') => some (r :: rs, s'')

/-- The replacer after `Insert(1)`, `Insert(2)`, `Insert(3)`. -/
def lru123 : LRUReplacer Nat :=
  { _replacer := [1, 2, 3], _sz := 3 }

end LRUReplacer

/-! ## Lemmas on the map model -/

section

variable {K : Type u} {V : Type v} [DecidableEq K]

theorem mapFind_mapSet_self (l : List (K × V)) (k : K) (v : V) :
    mapFind (mapSet l k v) k = some v := by
  induction l with
  | nil => simp [mapSet, mapFind]
  | cons e rest ih =>
    obtain ⟨k', v'⟩ := e
    by_cases h : k' = k
    · simp [mapSet, mapFind, h]
    · simp [mapSet, mapFind, h, ih]

theorem mapFind_mapSet_ne (l : List (K × V)) {k k' : K} (v : V) (hne : k' ≠ k) :
    mapFind (mapSet l k v) k' = mapFind l k' := by
  induction l with
  | nil => simp [mapSet, mapFind, Ne.symm hne]
  | cons e rest ih =>
    obtain ⟨k0, v0⟩ := e
    by_cases h : k0 = k
    · subst h
      simp [mapSet, mapFind, Ne.symm hne]
    · by_cases h' : k0 = k'
      · subst h'
        simp [mapSet, mapFind, h]
      · simp [mapSet, mapFind, h, h', ih]

theorem mapFind_filter (p : K → Bool) (l : List (K × V)) (k : K) :
    mapFind (l.filter (fun e => p e.1)) k = if p k then mapFind l k else none := by
  induction l with
  | nil => simp [mapFind]
  | cons e rest ih =>
    obtain ⟨k0, v0⟩ := e
    by_cases hp : p k0 = true
    · by_cases h : k0 = k
      · subst h; simp [List.filter, hp, mapFind]
      · simp [List.filter, hp, mapFind, h, ih]
    · by_cases h : k0 = k
      · subst h; simp [List.filter, hp, mapFind, ih]
      · simp [List.filter, hp, mapFind, h, ih]

theorem mapFind_mapErase_self (l : List (K × V)) (k : K) :
    mapFind (mapErase l k) k = none := by
  have := mapFind_filter (V := V) (fun x => decide (x ≠ k)) l k
  simpa [mapErase] using this

theorem mapFind_mapErase_ne (l : List (K × V)) {k k' : K} (hne : k' ≠ k) :
    mapFind (mapErase l k) k' = mapFind l k' := by
  have := mapFind_filter (V := V) (fun x => decide (x ≠ k)) l k'
  simpa [mapErase, hne] using this

theorem mapFind_eq_some_mem {l : List (K × V)} {k : K} {v : V} (h : mapFind l k = some v) :
    (k, v) ∈ l := by
  induction l with
  | nil => simp [mapFind] at h
  | cons e rest ih =>
    obtain ⟨k0, v0⟩ := e
    by_cases h0 : k0 = k
    · subst h0
      simp [mapFind] at h
      simp [h]
    · simp [mapFind, h0] at h
      exact List.mem_cons_of_mem _ (ih h)

theorem mapFind_isSome_of_mem {l : List (K × V)} {k : K} {v : V} (h : (k, v) ∈ l) :
    (mapFind l k).isSome = true := by
  induction l with
  | nil => simp at h
  | cons e rest ih =>
    obtain ⟨k0, v0⟩ := e
    by_cases h0 : k0 = k
    · simp [mapFind, h0]
    · have : (k, v) ∈ rest := by
        rcases List.mem_cons.1 h with h1 | h1
        · exact absurd (congrArg Prod.fst h1).symm h0
        · exact h1
      simp [mapFind, h0, ih this]

theorem length_mapSet_le (l : List (K × V)) (k : K) (v : V) :
    (mapSet l k v).length ≤ l.length + 1 := by
  induction l with
  | nil => simp [mapSet]
  | cons e rest ih =>
    obtain ⟨k0, v0⟩ := e
    by_cases h0 : k0 = k
    · simp [mapSet, h0]
    · simp [mapSet, h0]; omega

theorem length_mapSet_of_isSome (l : List (K × V)) (k : K) (v : V)
    (h : (mapFind l k).isSome = true) : (mapSet l k v).length = l.length := by
  induction l with
  | nil => simp [mapFind] at h
  | cons e rest ih =>
    obtain ⟨k0, v0⟩ := e
    by_cases h0 : k0 = k
    · simp [mapSet, h0]
    · simp [mapFind, h0] at h
      simp [mapSet, h0, ih h]

theorem mem_mapSet {l : List (K × V)} {k : K} {v : V} {e : K × V} (h : e ∈ mapSet l k v) :
    e ∈ l ∨ e = (k, v) := by
  induction l with
  | nil => simpa [mapSet] using h
  | cons e0 rest ih =>
    obtain ⟨k0, v0⟩ := e0
    by_cases h0 : k0 = k
    · subst h0
      simp [mapSet] at h
      rcases h with h | h
      · right; exact h
      · left; exact List.mem_cons_of_mem _ h
    · simp [mapSet, h0] at h
      rcases h with h | h
      · left; simp [h]
      · rcases ih h with h1 | h1
        · left; exact List.mem_cons_of_mem _ h1
        · right; exact h1

theorem keys_mapSet (l : List (K × V)) (k : K) (v : V) :
    (mapSet l k v).map Prod.fst =
      if (mapFind l k).isSome then l.map Prod.fst else l.map Prod.fst ++ [k] := by
  induction l with
  | nil => simp [mapSet, mapFind]
  | cons e rest ih =>
    obtain ⟨k0, v0⟩ := e
    by_cases h0 : k0 = k
    · simp [mapSet, mapFind, h0]
    · simp only [mapSet, mapFind, h0, if_false, List.map_cons, ih]
      split <;> simp

theorem not_mem_keys_of_mapFind_none {l : List (K × V)} {k : K}
    (h : (mapFind l k).isSome = false) : k ∉ l.map Prod.fst := by
  intro hm
  obtain ⟨e, he, hk⟩ := List.mem_map.1 hm
  have : (e.1, e.2) ∈ l := he
  rw [hk] at this
  rw [mapFind_isSome_of_mem this] at h
  exact Bool.noConfusion h

theorem nodup_keys_mapSet {l : List (K × V)} (k : K) (v : V)
    (h : (l.map Prod.fst).Nodup) : ((mapSet l k v).map Prod.fst).Nodup := by
  rw [keys_mapSet]
  by_cases hs : (mapFind l k).isSome = true
  · rw [if_pos hs]; exact h
  · rw [if_neg hs]
    have hn := not_mem_keys_of_mapFind_none (by simpa using hs)
    rw [List.nodup_append]
    refine ⟨h, List.nodup_singleton k, ?_⟩
    intro x hx hx'
    rw [List.mem_singleton] at hx'
    exact hn (hx' ▸ hx)

end

/-! ## Lemmas on the bit operations -/
theorem addr_eq_mod (h g : Nat) : h &&& ((1 <<< g) - 1) = h % 2 ^ g := by
  rw [Nat.one_shiftLeft, Nat.and_pow_two_sub_one_eq_mod]

theorem and_mask_ne_zero_iff (h d : Nat) : h &&& (1 <<< d) ≠ 0 ↔ h.testBit d = true := by
  rw [Nat.one_shiftLeft]
  constructor
  · intro hne
    by_contra hb
    apply hne
    apply Nat.eq_of_testBit_eq
    intro i
    simp only [Nat.testBit_and, Nat.zero_testBit, Nat.testBit_two_pow]
    by_cases hi : d = i
    · subst hi; simp at hb; simp [hb]
    · simp [hi]
  · intro hb hz
    have := congrArg (fun x => x.testBit d) hz
    simp [hb, Nat.testBit_two_pow_self] at this

theorem testBit_mod_of_lt (h : Nat) {d g : Nat} (hd : d < g) :
    (h % 2 ^ g).testBit d = h.testBit d := by
  simp [Nat.testBit_mod_two_pow, hd]


theorem mod_pow_of_le (i : Nat) {m g : Nat} (h : m ≤ g) : (i % 2 ^ g) % 2 ^ m = i % 2 ^ m :=
  Nat.mod_mod_of_dvd i (pow_dvd_pow 2 h)

theorem mod_pow_succ_eq {a b d : Nat} (h : a % 2 ^ d = b % 2 ^ d)
    (hb : a.testBit d = b.testBit d) : a % 2 ^ (d + 1) = b % 2 ^ (d + 1) := by
  apply Nat.eq_of_testBit_eq
  intro t
  simp only [Nat.testBit_mod_two_pow]
  by_cases ht : t < d
  · have h1 := congrArg (fun x => x.testBit t) h
    simp only [Nat.testBit_mod_two_pow, ht, decide_True, Bool.true_and] at h1
    simp [h1]
  · by_cases ht' : t = d
    · subst ht'; simp [hb]
    · have : ¬ t < d + 1 := by omega
      simp [this]

theorem mod_pow_of_succ {a b d : Nat} (h : a % 2 ^ (d + 1) = b % 2 ^ (d + 1)) :
    a % 2 ^ d = b % 2 ^ d := by
  rw [← mod_pow_of_le a (Nat.le_succ d), ← mod_pow_of_le b (Nat.le_succ d), h]

/-! ## Lemmas on the heap and on one split -/

namespace ExtendibleHash

variable {K : Type u} {V : Type v}

theorem getD_append_self (l : List Nat) (i : Nat) (hi : i < 2 * l.length) :
    (l ++ l).getD i 0 = l.getD (i % l.length) 0 := by
  simp only [List.getD_eq_getElem?_getD]
  by_cases h : i < l.length
  · rw [List.getElem?_append_left h, Nat.mod_eq_of_lt h]
  · have h' : l.length ≤ i := Nat.le_of_not_lt h
    rw [List.getElem?_append_right h']
    have : i % l.length = i - l.length := by
      rw [Nat.mod_eq_sub_mod h', Nat.mod_eq_of_lt (by omega)]
    rw [this]

theorem deref_set_self (s : ExtendibleHash K V) (ptr : Nat) (b : Bucket K V)
    (h : ptr < s.heap.length) :
    ({ s with heap := s.heap.set ptr b } : ExtendibleHash K V).deref ptr = b := by
  simp [deref, List.getD_eq_getElem?_getD, h]

theorem deref_set_ne (s : ExtendibleHash K V) {ptr q : Nat} (b : Bucket K V) (h : q ≠ ptr) :
    ({ s with heap := s.heap.set ptr b } : ExtendibleHash K V).deref q = s.deref q := by
  simp [deref, List.getD_eq_getElem?_getD, List.getElem?_set_ne (Ne.symm h)]

theorem splitStep_heap_length (hash : K → Nat) (s : ExtendibleHash K V) (ptr : Nat) :
    (splitStep hash s ptr).heap.length = s.heap.length + 1 := by
  simp [splitStep]

theorem splitStep_bucketSz (hash : K → Nat) (s : ExtendibleHash K V) (ptr : Nat) :
    (splitStep hash s ptr).bucketSz_ = s.bucketSz_ := rfl

theorem splitStep_globalDepth (hash : K → Nat) (s : ExtendibleHash K V) (ptr : Nat) :
    (splitStep hash s ptr).globalDepth_ =
      if (s.deref ptr).localDepth + 1 > s.globalDepth_ then s.globalDepth_ + 1
      else s.globalDepth_ := rfl

theorem splitStep_deref_ptr (hash : K → Nat) (s : ExtendibleHash K V) (ptr : Nat)
    (h : ptr < s.heap.length) :
    (splitStep hash s ptr).deref ptr =
      ⟨(s.deref ptr).localDepth + 1,
        (s.deref ptr).items.filter
          (fun p => ¬ (hash p.1 &&& (1 <<< (s.deref ptr).localDepth) ≠ 0))⟩ := by
  simp [splitStep, deref, List.getD_eq_getElem?_getD, List.getElem?_append_left, h]

theorem splitStep_deref_new (hash : K → Nat) (s : ExtendibleHash K V) (ptr : Nat) :
    (splitStep hash s ptr).deref s.heap.length =
      ⟨(s.deref ptr).localDepth + 1,
        (s.deref ptr).items.filter
          (fun p => hash p.1 &&& (1 <<< (s.deref ptr).localDepth) ≠ 0)⟩ := by
  simp [splitStep, deref, List.getD_eq_getElem?_getD, List.getElem?_append_right]

theorem splitStep_deref_other (hash : K → Nat) (s : ExtendibleHash K V) {ptr q : Nat}
    (hq : q < s.heap.length) (hne : q ≠ ptr) :
    (splitStep hash s ptr).deref q = s.deref q := by
  simp [splitStep, deref, List.getD_eq_getElem?_getD, List.getElem?_append_left, hq,
    List.getElem?_set_ne (Ne.symm hne)]

theorem splitStep_dir_length (hash : K → Nat) (s : ExtendibleHash K V) (ptr : Nat) :
    (splitStep hash s ptr).bucketLists_.length =
      if (s.deref ptr).localDepth + 1 > s.globalDepth_ then 2 * s.bucketLists_.length
      else s.bucketLists_.length := by
  simp only [splitStep, List.length_mapIdx]
  split <;> simp [two_mul]

theorem splitStep_slot (hash : K → Nat) (s : ExtendibleHash K V) (ptr : Nat) (i : Nat)
    (hi : i < (splitStep hash s ptr).bucketLists_.length) :
    (splitStep hash s ptr).slot i =
      if s.slot (i % s.bucketLists_.length) = ptr ∧
          i &&& (1 <<< (s.deref ptr).localDepth) ≠ 0
      then s.heap.length else s.slot (i % s.bucketLists_.length) := by
  have hlen := splitStep_dir_length hash s ptr
  rw [hlen] at hi
  simp only [slot, splitStep, List.getD_eq_getElem?_getD, List.getElem?_mapIdx]
  by_cases hg : (s.deref ptr).localDepth + 1 > s.globalDepth_
  · simp only [hg, if_true] at hi ⊢
    have := getD_append_self s.bucketLists_ i hi
    simp only [List.getD_eq_getElem?_getD] at this
    have hi2 : i < (s.bucketLists_ ++ s.bucketLists_).length := by simp; omega
    rw [List.getElem?_eq_getElem hi2] at this ⊢
    simp only [Option.map_some', Option.getD_some] at this ⊢
    rw [this]
  · simp only [hg, if_false] at hi ⊢
    rw [Nat.mod_eq_of_lt hi, List.getElem?_eq_getElem hi]
    simp


theorem splitStep_slot_mod (s : ExtendibleHash K V)
    (hlen : s.bucketLists_.length = 2 ^ s.globalDepth_) (i : Nat) :
    i % s.bucketLists_.length < s.bucketLists_.length ∧
    ∀ m, m ≤ s.globalDepth_ → (i % s.bucketLists_.length) % 2 ^ m = i % 2 ^ m := by
  constructor
  · apply Nat.mod_lt
    rw [hlen]; exact Nat.two_pow_pos _
  · intro m hm
    rw [hlen]; exact mod_pow_of_le i hm

theorem splitStep_dir_length_pow (hash : K → Nat) (s : ExtendibleHash K V)
    (hlen : s.bucketLists_.length = 2 ^ s.globalDepth_) (ptr : Nat) :
    (splitStep hash s ptr).bucketLists_.length = 2 ^ (splitStep hash s ptr).globalDepth_ := by
  rw [splitStep_dir_length, splitStep_globalDepth]
  split
  · rw [hlen, pow_succ]; omega
  · exact hlen

theorem splitStep_depth_bounds (hash : K → Nat) (s : ExtendibleHash K V) (ptr : Nat)
    (hd : (s.deref ptr).localDepth ≤ s.globalDepth_) :
    s.globalDepth_ ≤ (splitStep hash s ptr).globalDepth_ ∧
    (s.deref ptr).localDepth + 1 ≤ (splitStep hash s ptr).globalDepth_ := by
  rw [splitStep_globalDepth]
  split <;> omega


/-- What one split of the bucket at `ptr` does to directory slot `i`: the slot
goes to the new sibling, stays with the split bucket, or is left alone. -/
theorem splitStep_cases (hash : K → Nat) (s : ExtendibleHash K V) (ptr : Nat)
    (hptr : ptr < s.heap.length)
    (hvalid : ∀ i, i < s.bucketLists_.length → s.slot i < s.heap.length)
    (hlen : s.bucketLists_.length = 2 ^ s.globalDepth_) (i : Nat)
    (hi : i < (splitStep hash s ptr).bucketLists_.length) :
    (s.slot (i % s.bucketLists_.length) = ptr ∧ i.testBit (s.deref ptr).localDepth = true ∧
      (splitStep hash s ptr).slot i = s.heap.length ∧
      (splitStep hash s ptr).deref ((splitStep hash s ptr).slot i) =
        ⟨(s.deref ptr).localDepth + 1, (s.deref ptr).items.filter
          (fun p => hash p.1 &&& (1 <<< (s.deref ptr).localDepth) ≠ 0)⟩) ∨
    (s.slot (i % s.bucketLists_.length) = ptr ∧ i.testBit (s.deref ptr).localDepth = false ∧
      (splitStep hash s ptr).slot i = ptr ∧
      (splitStep hash s ptr).deref ((splitStep hash s ptr).slot i) =
        ⟨(s.deref ptr).localDepth + 1, (s.deref ptr).items.filter
          (fun p => ¬ (hash p.1 &&& (1 <<< (s.deref ptr).localDepth) ≠ 0))⟩) ∨
    (s.slot (i % s.bucketLists_.length) ≠ ptr ∧
      (splitStep hash s ptr).slot i = s.slot (i % s.bucketLists_.length) ∧
      (splitStep hash s ptr).deref ((splitStep hash s ptr).slot i) =
        s.deref (s.slot (i % s.bucketLists_.length))) := by
  have hslot := splitStep_slot hash s ptr i hi
  have hj := (splitStep_slot_mod s hlen i).1
  by_cases hq : s.slot (i % s.bucketLists_.length) = ptr
  · by_cases hb : i.testBit (s.deref ptr).localDepth = true
    · left
      have hc : i &&& (1 <<< (s.deref ptr).localDepth) ≠ 0 := (and_mask_ne_zero_iff _ _).2 hb
      rw [if_pos ⟨hq, hc⟩] at hslot
      refine ⟨hq, hb, hslot, ?_⟩
      rw [hslot, splitStep_deref_new]
    · right; left
      have hc : ¬ (i &&& (1 <<< (s.deref ptr).localDepth) ≠ 0) :=
        fun h => hb ((and_mask_ne_zero_iff _ _).1 h)
      rw [if_neg (fun h => hc h.2)] at hslot
      refine ⟨hq, by simpa using hb, hslot.trans hq, ?_⟩
      rw [hslot, hq, splitStep_deref_ptr hash s ptr hptr]
  · right; right
    rw [if_neg (fun h => hq h.1)] at hslot
    refine ⟨hq, hslot, ?_⟩
    rw [hslot, splitStep_deref_other hash s (hvalid _ hj) hq]

theorem Inv.splitStep {hash : K → Nat} {s : ExtendibleHash K V} (hInv : Inv hash s)
    {a : Nat} (ha : a < s.bucketLists_.length) :
    Inv hash (splitStep hash s (s.slot a)) := by
  have hptr := hInv.valid a ha
  have hd := hInv.depth a ha
  have hb := splitStep_depth_bounds hash s (s.slot a) hd
  have hmod := fun i => splitStep_slot_mod s hInv.dirLen i
  have hcases := splitStep_cases hash s (s.slot a) hptr hInv.valid hInv.dirLen
  refine ⟨splitStep_dir_length_pow hash s hInv.dirLen _, ?_, ?_, ?_, ?_, ?_, ?_⟩
  · intro i hi
    rw [splitStep_heap_length]
    rcases hcases i hi with ⟨_, _, h, _⟩ | ⟨_, _, h, _⟩ | ⟨_, h, _⟩
    · omega
    · omega
    · have := hInv.valid _ (hmod i).1
      omega
  · intro i hi
    rcases hcases i hi with ⟨_, _, _, h⟩ | ⟨_, _, _, h⟩ | ⟨_, _, h⟩
    · rw [h]; exact hb.2
    · rw [h]; exact hb.2
    · rw [h]; exact le_trans (hInv.depth _ (hmod i).1) hb.1
  · intro i hi
    have hsz := hInv.size a ha
    rw [splitStep_bucketSz]
    rcases hcases i hi with ⟨_, _, _, h⟩ | ⟨_, _, _, h⟩ | ⟨_, _, h⟩
    · rw [h]; exact le_trans (List.length_filter_le _ _) hsz
    · rw [h]; exact le_trans (List.length_filter_le _ _) hsz
    · rw [h]; exact hInv.size _ (hmod i).1
  · intro i hi e he
    rcases hcases i hi with ⟨hq, hbit, _, h⟩ | ⟨hq, hbit, _, h⟩ | ⟨_, _, h⟩
    · rw [h] at he ⊢
      simp only [List.mem_filter, decide_eq_true_eq] at he
      have h1 := hInv.addr _ (hmod i).1 e (by rw [hq]; exact he.1)
      rw [hq, (hmod i).2 _ hd] at h1
      exact mod_pow_succ_eq h1 (by rw [hbit]; exact (and_mask_ne_zero_iff _ _).1 he.2)
    · rw [h] at he ⊢
      simp only [List.mem_filter, decide_eq_true_eq] at he
      have h1 := hInv.addr _ (hmod i).1 e (by rw [hq]; exact he.1)
      rw [hq, (hmod i).2 _ hd] at h1
      refine mod_pow_succ_eq h1 ?_
      rw [hbit]
      by_contra hne
      exact he.2 ((and_mask_ne_zero_iff _ _).2 (by simpa using hne))
    · rw [h] at he ⊢
      have h1 := hInv.addr _ (hmod i).1 e he
      rwa [(hmod i).2 _ (hInv.depth _ (hmod i).1)] at h1
  · intro i i' hi hi' heq
    have hvi := hInv.valid _ (hmod i).1
    have hvi' := hInv.valid _ (hmod i').1
    rcases hcases i hi with ⟨hq, hbit, hs, h⟩ | ⟨hq, hbit, hs, h⟩ | ⟨hq, hs, h⟩
    · rcases hcases i' hi' with ⟨hq', hbit', hs', _⟩ | ⟨hq', hbit', hs', _⟩ | ⟨hq', hs', _⟩
      · rw [h]
        have h1 := hInv.share _ _ (hmod i).1 (hmod i').1 (hq.trans hq'.symm)
        rw [hq, (hmod i).2 _ hd, (hmod i').2 _ hd] at h1
        exact mod_pow_succ_eq h1 (by rw [hbit, hbit'])
      · omega
      · omega
    · rcases hcases i' hi' with ⟨hq', hbit', hs', _⟩ | ⟨hq', hbit', hs', _⟩ | ⟨hq', hs', _⟩
      · omega
      · rw [h]
        have h1 := hInv.share _ _ (hmod i).1 (hmod i').1 (hq.trans hq'.symm)
        rw [hq, (hmod i).2 _ hd, (hmod i').2 _ hd] at h1
        exact mod_pow_succ_eq h1 (by rw [hbit, hbit'])
      · exact absurd (hs'.symm.trans (heq.symm.trans hs)) hq'
    · rcases hcases i' hi' with ⟨hq', hbit', hs', _⟩ | ⟨hq', hbit', hs', _⟩ | ⟨hq', hs', _⟩
      · omega
      · exact absurd (hs.symm.trans (heq.trans hs')) hq
      · rw [h]
        have h1 := hInv.share _ _ (hmod i).1 (hmod i').1 (hs.symm.trans (heq.trans hs'))
        have hdi := hInv.depth _ (hmod i).1
        rwa [(hmod i).2 _ hdi, (hmod i').2 _ hdi] at h1
  · intro i hi
    have hnd := hInv.nodup a ha
    rcases hcases i hi with ⟨_, _, _, h⟩ | ⟨_, _, _, h⟩ | ⟨_, _, h⟩
    · rw [h]; exact hnd.sublist ((List.filter_sublist _).map _)
    · rw [h]; exact hnd.sublist ((List.filter_sublist _).map _)
    · rw [h]; exact hInv.nodup _ (hmod i).1


/-- Replacing the items of the bucket at `ptr`, keeping its local depth,
preserves the invariant when the new items respect it. -/
theorem Inv.update {hash : K → Nat} {s : ExtendibleHash K V} (hInv : Inv hash s)
    {ptr : Nat} (items : List (K × V))
    (hsz : items.length ≤ s.bucketSz_)
    (haddr : ∀ i, i < s.bucketLists_.length → s.slot i = ptr → ∀ e, e ∈ items →
      hash e.1 % 2 ^ (s.deref ptr).localDepth = i % 2 ^ (s.deref ptr).localDepth)
    (hnd : (items.map Prod.fst).Nodup) :
    Inv hash { s with heap := s.heap.set ptr { s.deref ptr with items := items } } := by
  have key : ∀ i, i < s.bucketLists_.length →
      (s.slot i = ptr ∧
        ({ s with heap := s.heap.set ptr { s.deref ptr with items := items } } :
          ExtendibleHash K V).deref (s.slot i) = { s.deref ptr with items := items }) ∨
      (s.slot i ≠ ptr ∧
        ({ s with heap := s.heap.set ptr { s.deref ptr with items := items } } :
          ExtendibleHash K V).deref (s.slot i) = s.deref (s.slot i)) := by
    intro i hi
    by_cases hq : s.slot i = ptr
    · left
      refine ⟨hq, ?_⟩
      rw [hq]
      exact deref_set_self s ptr _ (hq ▸ hInv.valid i hi)
    · right
      exact ⟨hq, deref_set_ne s _ hq⟩
  refine ⟨hInv.dirLen, ?_, ?_, ?_, ?_, ?_, ?_⟩
  · intro i hi
    have := hInv.valid i hi
    simpa [slot] using this
  · intro i hi
    show (ExtendibleHash.deref _ (s.slot i)).localDepth ≤ s.globalDepth_
    rcases key i hi with ⟨hq, h⟩ | ⟨_, h⟩
    · rw [h]; exact hq ▸ hInv.depth i hi
    · rw [h]; exact hInv.depth i hi
  · intro i hi
    show (ExtendibleHash.deref _ (s.slot i)).items.length ≤ s.bucketSz_
    rcases key i hi with ⟨_, h⟩ | ⟨_, h⟩
    · rw [h]; exact hsz
    · rw [h]; exact hInv.size i hi
  · intro i hi e he
    change e ∈ (ExtendibleHash.deref _ (s.slot i)).items at he
    show hash e.1 % 2 ^ (ExtendibleHash.deref _ (s.slot i)).localDepth
      = i % 2 ^ (ExtendibleHash.deref _ (s.slot i)).localDepth
    rcases key i hi with ⟨hq, h⟩ | ⟨_, h⟩
    · rw [h] at he ⊢
      exact haddr i hi hq e he
    · rw [h] at he ⊢
      exact hInv.addr i hi e he
  · intro i j hi hj heq
    change s.slot i = s.slot j at heq
    show i % 2 ^ (ExtendibleHash.deref _ (s.slot i)).localDepth
      = j % 2 ^ (ExtendibleHash.deref _ (s.slot i)).localDepth
    rcases key i hi with ⟨hq, h⟩ | ⟨_, h⟩
    · rw [h]
      have := hInv.share i j hi hj heq
      rwa [hq] at this
    · rw [h]; exact hInv.share i j hi hj heq
  · intro i hi
    show ((ExtendibleHash.deref _ (s.slot i)).items.map Prod.fst).Nodup
    rcases key i hi with ⟨_, h⟩ | ⟨_, h⟩
    · rw [h]; exact hnd
    · rw [h]; exact hInv.nodup i hi

theorem Inv.init (hash : K → Nat) (size : Nat) : Inv hash (init size : ExtendibleHash K V) := by
  refine ⟨rfl, ?_, ?_, ?_, ?_, ?_, ?_⟩
  · intro i hi
    have : i = 0 := by simpa [ExtendibleHash.init] using hi
    subst this; simp [ExtendibleHash.init, slot]
  · intro i hi
    have : i = 0 := by simpa [ExtendibleHash.init] using hi
    subst this; exact Nat.zero_le _
  · intro i hi
    have : i = 0 := by simpa [ExtendibleHash.init] using hi
    subst this; exact Nat.zero_le _
  · intro i hi e he
    have : i = 0 := by simpa [ExtendibleHash.init] using hi
    subst this
    simp [ExtendibleHash.init, slot, deref] at he
  · intro i j hi hj _
    have h1 : i = 0 := by simpa [ExtendibleHash.init] using hi
    have h2 : j = 0 := by simpa [ExtendibleHash.init] using hj
    rw [h1, h2]
  · intro i hi
    have : i = 0 := by simpa [ExtendibleHash.init] using hi
    subst this
    simp [ExtendibleHash.init, slot, deref]

/-- The slot addressed by a key lies within the directory. -/
theorem Inv.addr_lt {hash : K → Nat} {s : ExtendibleHash K V} (hInv : Inv hash s) (key : K) :
    hash key &&& ((1 <<< s.globalDepth_) - 1) < s.bucketLists_.length := by
  rw [addr_eq_mod, hInv.dirLen]
  exact Nat.mod_lt _ (Nat.two_pow_pos _)

theorem deref_of_le (s : ExtendibleHash K V) {p : Nat} (h : s.heap.length ≤ p) :
    s.deref p = ⟨0, []⟩ := by
  simp [deref, List.getD_eq_getElem?_getD, List.getElem?_eq_none h]

/-- Writing new items into the bucket at `ptr` changes no local depth. -/
theorem localDepth_set_items (s : ExtendibleHash K V) (ptr : Nat) (items : List (K × V))
    (p : Nat) :
    (({ s with heap := s.heap.set ptr { s.deref ptr with items := items } } :
      ExtendibleHash K V).deref p).localDepth = (s.deref p).localDepth := by
  by_cases hp : p = ptr
  · subst hp
    by_cases hv : p < s.heap.length
    · rw [deref_set_self s p _ hv]
    · have h1 : s.heap.length ≤ p := Nat.le_of_not_lt hv
      rw [deref_of_le s h1, deref_of_le _ (by simpa using h1)]
  · rw [deref_set_ne s _ hp]

/-- A split lowers the local depth of no bucket. -/
theorem splitStep_localDepth_le (hash : K → Nat) (s : ExtendibleHash K V) (ptr p : Nat) :
    (s.deref p).localDepth ≤ ((splitStep hash s ptr).deref p).localDepth := by
  by_cases hv : p < s.heap.length
  · by_cases hp : p = ptr
    · subst hp
      rw [splitStep_deref_ptr hash s p hv]
      exact Nat.le_succ _
    · rw [splitStep_deref_other hash s hv hp]
  · rw [deref_of_le s (Nat.le_of_not_lt hv)]
    exact Nat.zero_le _

theorem testBit_eq_of_mod_succ {a b d : Nat} (h : a % 2 ^ (d + 1) = b % 2 ^ (d + 1)) :
    a.testBit d = b.testBit d := by
  rw [← testBit_mod_of_lt a (Nat.lt_succ_self d), ← testBit_mod_of_lt b (Nat.lt_succ_self d), h]

/-- Among the numbers below `2 ^ g`, exactly `2 ^ (g - d)` have given low `d` bits. -/
theorem countP_low_bits (d r : Nat) (hr : r < 2 ^ d) :
    ∀ g, d ≤ g → (List.range (2 ^ g)).countP (fun i => i % 2 ^ d = r) = 2 ^ (g - d) := by
  intro g hg
  induction g with
  | zero =>
    have hd : d = 0 := by omega
    subst hd
    have : r = 0 := by simpa using hr
    subst this
    decide
  | succ n ih =>
    by_cases hdn : d = n + 1
    · subst hdn
      rw [Nat.sub_self, pow_zero]
      have h1 : (List.range (2 ^ (n + 1))).countP (fun i => i % 2 ^ (n + 1) = r)
          = (List.range (2 ^ (n + 1))).count r := by
        rw [List.count]
        apply List.countP_congr
        intro x hx
        rw [List.mem_range] at hx
        simp [Nat.mod_eq_of_lt hx]
      rw [h1]
      exact List.count_eq_one_of_mem (List.nodup_range _) (List.mem_range.2 hr)
    · have hdn' : d ≤ n := by omega
      have h2 : 2 ^ (n + 1) = 2 ^ n + 2 ^ n := by rw [pow_succ]; omega
      rw [h2, List.range_add, List.countP_append, List.countP_map, ih hdn']
      have h3 : (List.range (2 ^ n)).countP ((fun i => decide (i % 2 ^ d = r)) ∘ fun x => 2 ^ n + x)
          = (List.range (2 ^ n)).countP (fun i => i % 2 ^ d = r) := by
        apply List.countP_congr
        intro x _
        have hdvd : 2 ^ d ∣ 2 ^ n := pow_dvd_pow 2 hdn'
        simp only [Function.comp, decide_eq_true_eq]
        rw [Nat.add_mod, Nat.mod_eq_zero_of_dvd hdvd, Nat.zero_add, Nat.mod_mod]
      rw [h3, ih hdn']
      have : n + 1 - d = (n - d) + 1 := by omega
      rw [this, pow_succ]; omega

/-- The number of occurrences of `p` in a list, counted over the positions. -/
theorem count_eq_countP_range (l : List Nat) (p : Nat) :
    l.count p = (List.range l.length).countP (fun i => l.getD i 0 = p) := by
  have hl : l = (List.range l.length).map (fun i => l.getD i 0) := by
    apply List.ext_getElem
    · simp
    · intro n h1 h2
      simp [List.getD_eq_getElem?_getD, List.getElem?_eq_getElem h1]
  conv_lhs => rw [hl]
  rw [List.count, List.countP_map]
  apply List.countP_congr
  intro x _
  simp [Function.comp]

theorem alias_init (size : Nat) : Alias (init size : ExtendibleHash K V) := by
  intro i j hi hj _
  have h1 : i = 0 := by simpa [ExtendibleHash.init] using hi
  have h2 : j = 0 := by simpa [ExtendibleHash.init] using hj
  rw [h1, h2]

theorem alias_update {s : ExtendibleHash K V} (hA : Alias s) (ptr : Nat)
    (items : List (K × V)) :
    Alias { s with heap := s.heap.set ptr { s.deref ptr with items := items } } := by
  intro i j hi hj h
  have := localDepth_set_items s ptr items (s.slot i)
  change i % 2 ^ (ExtendibleHash.deref _ (s.slot i)).localDepth
    = j % 2 ^ (ExtendibleHash.deref _ (s.slot i)).localDepth at h
  rw [this] at h
  exact hA i j hi hj h

theorem alias_splitStep {hash : K → Nat} {s : ExtendibleHash K V} (hInv : Inv hash s)
    (hA : Alias s) {a : Nat} (ha : a < s.bucketLists_.length) :
    Alias (splitStep hash s (s.slot a)) := by
  have hptr := hInv.valid a ha
  have hd := hInv.depth a ha
  have hmod := fun i => splitStep_slot_mod s hInv.dirLen i
  have hcases := splitStep_cases hash s (s.slot a) hptr hInv.valid hInv.dirLen
  intro i i' hi hi' heq
  have hvi := hInv.valid _ (hmod i).1
  have hvi' := hInv.valid _ (hmod i').1
  rcases hcases i hi with ⟨hq, hbit, hs, h⟩ | ⟨hq, hbit, hs, h⟩ | ⟨hq, hs, h⟩
  · rw [h] at heq
    have hbit' : i'.testBit (s.deref (s.slot a)).localDepth = true := by
      rw [← testBit_eq_of_mod_succ heq]; exact hbit
    have h1 := mod_pow_of_succ heq
    rw [← (hmod i).2 _ hd, ← (hmod i').2 _ hd] at h1
    have h2 := hA _ _ (hmod i).1 (hmod i').1 (by rw [hq]; exact h1)
    rcases hcases i' hi' with ⟨_, _, hs', _⟩ | ⟨_, hb', _, _⟩ | ⟨hq', _, _⟩
    · rw [hs, hs']
    · rw [hbit'] at hb'; exact Bool.noConfusion hb'
    · exact absurd (h2.symm.trans hq) hq'
  · rw [h] at heq
    have hbit' : i'.testBit (s.deref (s.slot a)).localDepth = false := by
      rw [← testBit_eq_of_mod_succ heq]; exact hbit
    have h1 := mod_pow_of_succ heq
    rw [← (hmod i).2 _ hd, ← (hmod i').2 _ hd] at h1
    have h2 := hA _ _ (hmod i).1 (hmod i').1 (by rw [hq]; exact h1)
    rcases hcases i' hi' with ⟨_, hb', _, _⟩ | ⟨_, _, hs', _⟩ | ⟨hq', _, _⟩
    · rw [hbit'] at hb'; exact Bool.noConfusion hb'
    · rw [hs, hs']
    · exact absurd (h2.symm.trans hq) hq'
  · rw [h] at heq
    have hdi := hInv.depth _ (hmod i).1
    rw [← (hmod i).2 _ hdi, ← (hmod i').2 _ hdi] at heq
    have h2 := hA _ _ (hmod i).1 (hmod i').1 heq
    rcases hcases i' hi' with ⟨hq', _, _, _⟩ | ⟨hq', _, _, _⟩ | ⟨_, hs', _⟩
    · exact absurd (h2.trans hq') hq
    · exact absurd (h2.trans hq') hq
    · rw [hs, hs', h2]

/-- In a state with both invariants, the slots that reference the bucket of slot
`a` are those whose index agrees with `a` on the low `localDepth` bits. -/
theorem slot_eq_iff {hash : K → Nat} {s : ExtendibleHash K V} (hInv : Inv hash s)
    (hA : Alias s) {a i : Nat} (ha : a < s.bucketLists_.length)
    (hi : i < s.bucketLists_.length) :
    s.slot i = s.slot a ↔
      i % 2 ^ (s.deref (s.slot a)).localDepth = a % 2 ^ (s.deref (s.slot a)).localDepth := by
  constructor
  · intro h
    exact (hInv.share a i ha hi h.symm).symm
  · intro h
    exact (hA a i ha hi h.symm).symm

/-- The number of directory slots that reference the bucket of slot `a`. -/
theorem count_slot {hash : K → Nat} {s : ExtendibleHash K V} (hInv : Inv hash s)
    (hA : Alias s) {a : Nat} (ha : a < s.bucketLists_.length) :
    s.bucketLists_.count (s.slot a) =
      2 ^ (s.globalDepth_ - (s.deref (s.slot a)).localDepth) := by
  rw [count_eq_countP_range, ← countP_low_bits (s.deref (s.slot a)).localDepth
    (a % 2 ^ (s.deref (s.slot a)).localDepth) (Nat.mod_lt _ (Nat.two_pow_pos _))
    s.globalDepth_ (hInv.depth a ha), ← hInv.dirLen]
  apply List.countP_congr
  intro i hi
  rw [List.mem_range] at hi
  have := slot_eq_iff hInv hA ha hi
  simpa [slot] using this

theorem length_filter_not_add {α : Type u} (P : α → Prop) [DecidablePred P] (l : List α) :
    (l.filter (fun x => ¬ P x)).length + (l.filter (fun x => P x)).length = l.length := by
  induction l with
  | nil => rfl
  | cons e rest ih =>
    by_cases h : P e
    · simp only [List.filter_cons, h, not_true_eq_false, decide_False, decide_True,
        Bool.false_eq_true, if_false, if_true, List.length_cons]
      omega
    · simp only [List.filter_cons, h, not_false_eq_true, decide_False, decide_True,
        Bool.false_eq_true, if_false, if_true, List.length_cons]
      omega

/-- After a split of the allocated bucket at `ptr`, the bucket and its new sibling
share out the entries the bucket held. -/
theorem splitStep_partition (hash : K → Nat) (s : ExtendibleHash K V) (ptr : Nat)
    (hptr : ptr < s.heap.length) :
    ((splitStep hash s ptr).deref ptr).items.length
      + ((splitStep hash s ptr).deref s.heap.length).items.length
      = (s.deref ptr).items.length := by
  rw [splitStep_deref_ptr hash s ptr hptr, splitStep_deref_new]
  exact length_filter_not_add
    (fun p : K × V => hash p.1 &&& (1 <<< (s.deref ptr).localDepth) ≠ 0) (s.deref ptr).items

theorem filter_not_append_perm {α : Type u} (P : α → Prop) [DecidablePred P] (l : List α) :
    List.Perm (l.filter (fun x => ¬ P x) ++ l.filter (fun x => P x)) l := by
  have h := List.filter_append_perm (fun x => decide (P x)) l
  have e : l.filter (fun x => !decide (P x)) = l.filter (fun x => ¬ P x) := by
    apply List.filter_congr
    intro x _
    simp
  rw [e] at h
  exact List.perm_append_comm.trans h

/-- After a split of the allocated bucket at `ptr`, the entries of the bucket
followed by those of its new sibling are a rearrangement of the entries the bucket
held: no entry is lost, added or changed. -/
theorem splitStep_perm (hash : K → Nat) (s : ExtendibleHash K V) (ptr : Nat)
    (hptr : ptr < s.heap.length) :
    List.Perm (((splitStep hash s ptr).deref ptr).items
      ++ ((splitStep hash s ptr).deref s.heap.length).items) (s.deref ptr).items := by
  rw [splitStep_deref_ptr hash s ptr hptr, splitStep_deref_new]
  exact filter_not_append_perm
    (fun p : K × V => hash p.1 &&& (1 <<< (s.deref ptr).localDepth) ≠ 0) (s.deref ptr).items

section

variable [DecidableEq K]

theorem Inv.remove {hash : K → Nat} {s : ExtendibleHash K V} (hInv : Inv hash s) (key : K) :
    Inv hash (Remove hash s key).2 := by
  unfold Remove
  simp only
  split
  · have ha := hInv.addr_lt key
    refine hInv.update _ ?_ ?_ ?_
    · exact le_trans (List.length_filter_le _ _) (hInv.size _ ha)
    · intro i hi hq e he
      have := hInv.addr i hi e (by rw [hq]; exact (List.mem_filter.1 he).1)
      rwa [hq] at this
    · exact (hInv.nodup _ ha).sublist ((List.filter_sublist _).map _)
  · exact hInv

theorem Inv.insertLoop {hash : K → Nat} (key : K) (value : V) :
    ∀ (fuel : Nat) {s s' : ExtendibleHash K V}, Inv hash s →
      insertLoop hash key value fuel s (s.slot (hash key &&& ((1 <<< s.globalDepth_) - 1)))
        = some s' → Inv hash s' := by
  intro fuel
  induction fuel with
  | zero => intro s s' _ h; simp [ExtendibleHash.insertLoop] at h
  | succ n ih =>
    intro s s' hInv h
    have ha := hInv.addr_lt key
    rw [ExtendibleHash.insertLoop] at h
    simp only at h
    split at h
    · rename_i hc
      injection h with h
      subst h
      refine hInv.update _ ?_ ?_ ?_
      · rcases hc with hc | hc
        · rw [length_mapSet_of_isSome _ _ _ hc]; exact hInv.size _ ha
        · exact le_trans (length_mapSet_le _ _ _) hc
      · intro i hi hq e he
        rcases mem_mapSet he with h1 | h1
        · have := hInv.addr i hi e (by rw [hq]; exact h1)
          rwa [hq] at this
        · subst h1
          have h2 := hInv.share _ i ha hi hq.symm
          have hdep := hInv.depth _ ha
          rw [← h2]
          simp only [addr_eq_mod] at hdep ⊢
          exact (mod_pow_of_le _ hdep).symm
      · exact nodup_keys_mapSet _ _ (hInv.nodup _ ha)
    · exact ih (hInv.splitStep ha) h

theorem Inv.of_reachableBy {hash : K → Nat} {size : Nat} {ops : List (Op K V)}
    {s : ExtendibleHash K V} (h : ReachableBy hash size ops s) : Inv hash s := by
  induction h with
  | init => exact Inv.init hash size
  | insert _ hins ih => exact Inv.insertLoop _ _ _ ih hins
  | remove _ ih => exact ih.remove _

theorem Inv.of_reachable {hash : K → Nat} {size : Nat} {s : ExtendibleHash K V}
    (h : Reachable hash size s) : Inv hash s := by
  obtain ⟨ops, h⟩ := h
  exact Inv.of_reachableBy h

/-! ## Lookups across a split, an insert and a remove -/

/-- The lookup `Find` reads the bucket at the slot `hash key % 2 ^ globalDepth_`. -/
theorem Find_eq (hash : K → Nat) (s : ExtendibleHash K V) (key : K) :
    Find hash s key = mapFind (s.deref (s.slot (hash key % 2 ^ s.globalDepth_))).items key := by
  simp only [Find, addr_eq_mod]

/-- A split changes the result of no lookup. -/
theorem find_splitStep {hash : K → Nat} {s : ExtendibleHash K V} (hInv : Inv hash s)
    {a : Nat} (ha : a < s.bucketLists_.length) (k : K) :
    Find hash (splitStep hash s (s.slot a)) k = Find hash s k := by
  have hInv1 := hInv.splitStep ha
  have hd := hInv.depth a ha
  have hb := splitStep_depth_bounds hash s (s.slot a) hd
  have hi := hInv1.addr_lt k
  rw [addr_eq_mod] at hi
  have hmod := splitStep_slot_mod s hInv.dirLen (hash k % 2 ^ (splitStep hash s (s.slot a)).globalDepth_)
  have hj : hash k % 2 ^ (splitStep hash s (s.slot a)).globalDepth_ % s.bucketLists_.length
      = hash k % 2 ^ s.globalDepth_ := by
    rw [hInv.dirLen]; exact mod_pow_of_le _ hb.1
  have hbit : (hash k % 2 ^ (splitStep hash s (s.slot a)).globalDepth_).testBit
      (s.deref (s.slot a)).localDepth = (hash k).testBit (s.deref (s.slot a)).localDepth :=
    testBit_mod_of_lt _ (by omega)
  rw [Find_eq, Find_eq]
  rcases splitStep_cases hash s (s.slot a) (hInv.valid a ha) hInv.valid hInv.dirLen _ hi with
    ⟨hq, hb1, _, h⟩ | ⟨hq, hb1, _, h⟩ | ⟨_, _, h⟩
  · rw [h, ← hj, hq]
    have := mapFind_filter (V := V)
      (fun x => decide (hash x &&& (1 <<< (s.deref (s.slot a)).localDepth) ≠ 0))
      (s.deref (s.slot a)).items k
    rw [hbit] at hb1
    have hc := (and_mask_ne_zero_iff _ _).2 hb1
    simp only [hc, ne_eq, not_false_eq_true, decide_True, if_true] at this
    simpa using this
  · rw [h, ← hj, hq]
    have := mapFind_filter (V := V)
      (fun x => decide (¬ (hash x &&& (1 <<< (s.deref (s.slot a)).localDepth) ≠ 0)))
      (s.deref (s.slot a)).items k
    rw [hbit] at hb1
    have hc : ¬ (hash k &&& (1 <<< (s.deref (s.slot a)).localDepth) ≠ 0) := by
      intro hne
      rw [(and_mask_ne_zero_iff _ _).1 hne] at hb1
      exact Bool.noConfusion hb1
    simp only [hc, not_false_eq_true, decide_True, if_true] at this
    simpa using this
  · rw [h, hj]

/-- Lookups after the bucket at `ptr` got new items. -/
theorem find_update {hash : K → Nat} {s : ExtendibleHash K V} (hInv : Inv hash s)
    (ptr : Nat) (items : List (K × V)) (k : K) :
    Find hash { s with heap := s.heap.set ptr { s.deref ptr with items := items } } k =
      if s.slot (hash k % 2 ^ s.globalDepth_) = ptr then mapFind items k else Find hash s k := by
  have ha := hInv.addr_lt k
  rw [addr_eq_mod] at ha
  rw [Find_eq, Find_eq]
  show mapFind (ExtendibleHash.deref _ (s.slot (hash k % 2 ^ s.globalDepth_))).items k = _
  by_cases hq : s.slot (hash k % 2 ^ s.globalDepth_) = ptr
  · rw [if_pos hq, hq, deref_set_self s ptr _ (hq ▸ hInv.valid _ ha)]
  · rw [if_neg hq, deref_set_ne s _ hq]

theorem find_insertLoop_self {hash : K → Nat} (key : K) (value : V) :
    ∀ (fuel : Nat) {s s' : ExtendibleHash K V}, Inv hash s →
      insertLoop hash key value fuel s (s.slot (hash key &&& ((1 <<< s.globalDepth_) - 1)))
        = some s' → Find hash s' key = some value := by
  intro fuel
  induction fuel with
  | zero => intro s s' _ h; simp [ExtendibleHash.insertLoop] at h
  | succ n ih =>
    intro s s' hInv h
    have ha := hInv.addr_lt key
    rw [ExtendibleHash.insertLoop] at h
    simp only at h
    split at h
    · injection h with h
      subst h
      rw [find_update hInv, if_pos (by rw [addr_eq_mod]), mapFind_mapSet_self]
    · exact ih (hInv.splitStep ha) h

theorem find_insertLoop_ne {hash : K → Nat} (key : K) (value : V) {k : K} (hne : k ≠ key) :
    ∀ (fuel : Nat) {s s' : ExtendibleHash K V}, Inv hash s →
      insertLoop hash key value fuel s (s.slot (hash key &&& ((1 <<< s.globalDepth_) - 1)))
        = some s' → Find hash s' k = Find hash s k := by
  intro fuel
  induction fuel with
  | zero => intro s s' _ h; simp [ExtendibleHash.insertLoop] at h
  | succ n ih =>
    intro s s' hInv h
    have ha := hInv.addr_lt key
    rw [ExtendibleHash.insertLoop] at h
    simp only at h
    split at h
    · injection h with h
      subst h
      rw [find_update hInv]
      split
      · rename_i hq
        rw [mapFind_mapSet_ne _ _ hne, Find_eq, hq]
      · rfl
    · rw [ih (hInv.splitStep ha) h, find_splitStep hInv ha]

theorem remove_fst (hash : K → Nat) (s : ExtendibleHash K V) (key : K) :
    (Remove hash s key).1 = (Find hash s key).isSome := by
  unfold Remove Find
  simp only
  split
  · rename_i h; simp [h]
  · rename_i h; simp at h; simp [h]

theorem find_remove {hash : K → Nat} {s : ExtendibleHash K V} (hInv : Inv hash s)
    (key k : K) :
    Find hash (Remove hash s key).2 k = if k = key then none else Find hash s k := by
  unfold Remove
  simp only
  split
  · rw [find_update hInv]
    by_cases hk : k = key
    · subst hk
      rw [if_pos (by rw [addr_eq_mod]), if_pos rfl, mapFind_mapErase_self]
    · rw [if_neg hk]
      split
      · rename_i hq
        rw [mapFind_mapErase_ne _ hk, Find_eq, hq]
      · rfl
  · rename_i h
    by_cases hk : k = key
    · subst hk
      rw [if_pos rfl]
      simpa [Find] using h
    · rw [if_neg hk]

theorem remove_of_find_none {hash : K → Nat} {s : ExtendibleHash K V} {key : K}
    (h : Find hash s key = none) : Remove hash s key = (false, s) := by
  unfold Find at h
  unfold Remove
  simp only at h ⊢
  rw [h]
  rfl

/-- The index refines the call history: a key is found exactly when its latest
call in the history is an `Insert`. -/
theorem find_isSome_eq_storedBy {hash : K → Nat} {size : Nat} {ops : List (Op K V)}
    {s : ExtendibleHash K V} (h : ReachableBy hash size ops s) (key : K) :
    (Find hash s key).isSome = storedBy ops key := by
  induction h with
  | init => simp [Find, ExtendibleHash.init, slot, deref, mapFind, storedBy]
  | @insert ops s s' fuel k v hr hins ih =>
    have hInv := Inv.of_reachableBy hr
    by_cases hk : k = key
    · subst hk
      rw [find_insertLoop_self _ _ _ hInv hins]
      simp [storedBy]
    · rw [find_insertLoop_ne _ _ (Ne.symm hk) _ hInv hins, ih]
      simp [storedBy, hk]
  | @remove ops s k hr ih =>
    have hInv := Inv.of_reachableBy hr
    rw [find_remove hInv]
    by_cases hk : k = key
    · subst hk
      simp [storedBy]
    · rw [if_neg (Ne.symm hk), ih]
      simp [storedBy, hk]

/-! ## Runs of the loop that never write -/

/-- With capacity 0 and only empty buckets, the loop of `Insert` never reaches its
write branch. -/
theorem insertLoop_capacity_zero (hash : K → Nat) (key : K) (value : V) :
    ∀ (fuel : Nat) (s : ExtendibleHash K V) (ptr : Nat), s.bucketSz_ = 0 →
      (∀ b, b ∈ s.heap → b.items = []) →
      insertLoop hash key value fuel s ptr = none := by
  intro fuel
  induction fuel with
  | zero => intro s _ _ _; rfl
  | succ n ih =>
    intro s ptr hsz hempty
    have hb : (s.deref ptr).items = [] := by
      unfold deref
      rw [List.getD_eq_getElem?_getD]
      cases hx : s.heap[ptr]? with
      | none => rfl
      | some b => exact hempty b (List.getElem?_mem hx)
    rw [ExtendibleHash.insertLoop]
    simp only [hb, hsz, mapFind, Option.isSome_none, List.length_nil, Nat.lt_irrefl, or_self,
      Bool.false_eq_true, if_false]
    apply ih _ _ (by rw [splitStep_bucketSz]; exact hsz)
    intro b hmem
    simp only [splitStep, hb, List.filter_nil, List.mem_append, List.mem_singleton] at hmem
    rcases hmem with h | h
    · rcases List.mem_or_eq_of_mem_set h with h1 | h1
      · exact hempty b h1
      · rw [h1]
    · rw [h]

/-! ## The write branch -/

/-- When the key is present in the bucket at `ptr` or that bucket is below
capacity, the loop of `Insert` writes the entry and stops. -/
theorem insertLoop_write (hash : K → Nat) (key : K) (value : V) (fuel : Nat)
    (s : ExtendibleHash K V) (ptr : Nat)
    (hc : (mapFind (s.deref ptr).items key).isSome = true ∨
      (s.deref ptr).items.length < s.bucketSz_) :
    insertLoop hash key value (fuel + 1) s ptr =
      some { s with
        heap := s.heap.set ptr { s.deref ptr with items := mapSet (s.deref ptr).items key value } } := by
  rw [ExtendibleHash.insertLoop]
  simp only
  rw [if_pos hc]

/-! ## Monotone growth -/


theorem insertLoop_monotone {hash : K → Nat} (key : K) (value : V) :
    ∀ (fuel : Nat) {s s' : ExtendibleHash K V} (ptr : Nat),
      insertLoop hash key value fuel s ptr = some s' →
      s.globalDepth_ ≤ s'.globalDepth_ ∧ s.bucketLists_.length ≤ s'.bucketLists_.length ∧
      s.numBuckets_ ≤ s'.numBuckets_ ∧ s.heap.length ≤ s'.heap.length ∧
      ∀ p, (s.deref p).localDepth ≤ (s'.deref p).localDepth := by
  intro fuel
  induction fuel with
  | zero => intro s s' _ h; simp [ExtendibleHash.insertLoop] at h
  | succ n ih =>
    intro s s' ptr h
    rw [ExtendibleHash.insertLoop] at h
    simp only at h
    split at h
    · injection h with h
      subst h
      exact ⟨le_refl _, le_refl _, le_refl _, by simp,
        fun p => le_of_eq (localDepth_set_items s ptr _ p).symm⟩
    · obtain ⟨h1, h2, h3, h4, h5⟩ := ih _ h
      refine ⟨le_trans ?_ h1, le_trans ?_ h2, le_trans ?_ h3, le_trans ?_ h4,
        fun p => le_trans (splitStep_localDepth_le hash s ptr p) (h5 p)⟩
      · rw [splitStep_globalDepth]; split <;> omega
      · rw [splitStep_dir_length]; split <;> omega
      · exact Nat.le_succ _
      · rw [splitStep_heap_length]; exact Nat.le_succ _

theorem remove_frame (hash : K → Nat) (s : ExtendibleHash K V) (key : K) :
    (Remove hash s key).2.globalDepth_ = s.globalDepth_ ∧
    (Remove hash s key).2.bucketLists_ = s.bucketLists_ ∧
    (Remove hash s key).2.numBuckets_ = s.numBuckets_ ∧
    (Remove hash s key).2.heap.length = s.heap.length ∧
    ∀ p, ((Remove hash s key).2.deref p).localDepth = (s.deref p).localDepth := by
  unfold Remove
  simp only
  split
  · exact ⟨rfl, rfl, rfl, by simp, fun p => localDepth_set_items s _ _ p⟩
  · exact ⟨rfl, rfl, rfl, rfl, fun _ => rfl⟩

/-! ## Aliasing of directory slots -/

theorem alias_remove {s : ExtendibleHash K V} (hA : Alias s) (hash : K → Nat) (key : K) :
    Alias (Remove hash s key).2 := by
  unfold Remove
  simp only
  split
  · exact alias_update hA _ _
  · exact hA

theorem alias_insertLoop {hash : K → Nat} (key : K) (value : V) :
    ∀ (fuel : Nat) {s s' : ExtendibleHash K V}, Inv hash s → Alias s →
      insertLoop hash key value fuel s (s.slot (hash key &&& ((1 <<< s.globalDepth_) - 1)))
        = some s' → Alias s' := by
  intro fuel
  induction fuel with
  | zero => intro s s' _ _ h; simp [ExtendibleHash.insertLoop] at h
  | succ n ih =>
    intro s s' hInv hA h
    have ha := hInv.addr_lt key
    rw [ExtendibleHash.insertLoop] at h
    simp only at h
    split at h
    · injection h with h
      subst h
      exact alias_update hA _ _
    · exact ih (hInv.splitStep ha) (alias_splitStep hInv hA ha) h

theorem alias_of_reachableBy {hash : K → Nat} {size : Nat} {ops : List (Op K V)}
    {s : ExtendibleHash K V} (h : ReachableBy hash size ops s) : Alias s := by
  induction h with
  | init => exact alias_init size
  | insert hr hins ih => exact alias_insertLoop _ _ _ (Inv.of_reachableBy hr) ih hins
  | remove _ ih => exact alias_remove ih _ _

theorem alias_of_reachable {hash : K → Nat} {size : Nat} {s : ExtendibleHash K V}
    (h : Reachable hash size s) : Alias s := by
  obtain ⟨ops, h⟩ := h
  exact alias_of_reachableBy h

theorem reachable_full1_id : Reachable id 1 full1 :=
  ⟨[Op.insert 0 0],
    ReachableBy.insert ReachableBy.init (show Insert id 1 (init 1) 0 0 = some full1 by decide)⟩

/-! ## The loop of `Insert` within the range of `int` -/

theorem insertLoop_bucketSz {hash : K → Nat} (key : K) (value : V) :
    ∀ (fuel : Nat) {s s' : ExtendibleHash K V} (ptr : Nat),
      insertLoop hash key value fuel s ptr = some s' → s'.bucketSz_ = s.bucketSz_ := by
  intro fuel
  induction fuel with
  | zero => intro s s' _ h; simp [ExtendibleHash.insertLoop] at h
  | succ n ih =>
    intro s s' ptr h
    rw [ExtendibleHash.insertLoop] at h
    simp only at h
    split at h
    · injection h with h
      subst h
      rfl
    · rw [ih _ h, splitStep_bucketSz]

theorem remove_bucketSz (hash : K → Nat) (s : ExtendibleHash K V) (key : K) :
    (Remove hash s key).2.bucketSz_ = s.bucketSz_ := by
  unfold Remove
  simp only
  split <;> rfl

theorem bucketSz_of_reachableBy {hash : K → Nat} {size : Nat} {ops : List (Op K V)}
    {s : ExtendibleHash K V} (h : ReachableBy hash size ops s) : s.bucketSz_ = size := by
  induction h with
  | init => rfl
  | insert _ hins ih => rw [insertLoop_bucketSz _ _ _ _ hins, ih]
  | remove _ ih => rw [remove_bucketSz, ih]

/-! ## Sample runs -/

theorem insert_sample0 : Insert id 1 (init 2) 1 10 = some sample1 := by decide

theorem reachable_sample1 : Reachable id 2 sample1 :=
  ⟨[Op.insert 1 10], ReachableBy.insert ReachableBy.init insert_sample0⟩

theorem insert_sample1 : Insert id 1 sample1 2 20 = some sample12 := by decide

theorem reachableBy_sample12 : ReachableBy id 2 ops12 sample12 :=
  ReachableBy.insert (ReachableBy.insert ReachableBy.init insert_sample0) insert_sample1

theorem reachable_sample12 : Reachable id 2 sample12 := ⟨ops12, reachableBy_sample12⟩

theorem insert_sample12 : Insert id 2 sample12 3 30 = some sample123 := by decide

theorem reachable_sample123 : Reachable id 2 sample123 :=
  ⟨Op.insert 3 30 :: ops12, ReachableBy.insert reachableBy_sample12 insert_sample12⟩

/-! ## The claims on the index -/

/-- C1: in every reachable index state, whenever `Insert(k, v)` returns, an
immediately following `Find(k)` reports found and yields exactly `v`. It holds
for every bucket capacity. -/
theorem insert_find_roundtrip (hash : K → Nat) (size : Nat) (s : ExtendibleHash K V)
    (hs : Reachable hash size s) (k : K) (v : V) (fuel : Nat) (s' : ExtendibleHash K V)
    (h : Insert hash fuel s k v = some s') : Find hash s' k = some v :=
  find_insertLoop_self k v fuel (Inv.of_reachable hs) h

theorem insert_find_roundtrip_witness :
    Reachable id 2 sample12 ∧ Insert id 2 sample12 3 30 = some sample123 ∧
      Find id sample123 3 = some 30 :=
  ⟨reachable_sample12, insert_sample12,
    insert_find_roundtrip id 2 sample12 reachable_sample12 3 30 2 sample123 insert_sample12⟩

/-- C2: in every reachable index state, whenever `Insert(k, v)` returns, `Find(k')`
gives the same result after the insert as before it for every key `k'` other
than `k`, whatever number of splits and directory doublings the insert made. -/
theorem insert_preserves_other_keys (hash : K → Nat) (size : Nat) (s : ExtendibleHash K V)
    (hs : Reachable hash size s) (k : K) (v : V) (k' : K) (hne : k' ≠ k) (fuel : Nat)
    (s' : ExtendibleHash K V) (h : Insert hash fuel s k v = some s') :
    Find hash s' k' = Find hash s k' :=
  find_insertLoop_ne k v hne fuel (Inv.of_reachable hs) h

theorem insert_preserves_other_keys_witness :
    Reachable id 2 sample12 ∧ (1 : Nat) ≠ 3 ∧ Insert id 2 sample12 3 30 = some sample123 ∧
      Find id sample123 1 = Find id sample12 1 :=
  ⟨reachable_sample12, by decide, insert_sample12,
    insert_preserves_other_keys id 2 sample12 reachable_sample12 3 30 1 (by decide) 2
      sample123 insert_sample12⟩

/-- C3: in every reachable index state, `Remove(k)` returns true exactly when
`Find(k)` reported found just before; afterwards `Find(k)` reports not found and
`Find(k')` is unchanged for every other key `k'`. -/
theorem remove_contract (hash : K → Nat) (size : Nat) (s : ExtendibleHash K V)
    (hs : Reachable hash size s) (k : K) :
    ((Remove hash s k).1 = true ↔ (Find hash s k).isSome = true) ∧
    Find hash (Remove hash s k).2 k = none ∧
    ∀ k', k' ≠ k → Find hash (Remove hash s k).2 k' = Find hash s k' := by
  have hInv := Inv.of_reachable hs
  refine ⟨by rw [remove_fst], ?_, ?_⟩
  · rw [find_remove hInv, if_pos rfl]
  · intro k' hne
    rw [find_remove hInv, if_neg hne]

theorem remove_contract_witness :
    Reachable id 2 sample123 ∧
    (((Remove id sample123 1).1 = true ↔ (Find id sample123 1).isSome = true) ∧
      Find id (Remove id sample123 1).2 1 = none ∧
      ∀ k', k' ≠ 1 → Find id (Remove id sample123 1).2 k' = Find id sample123 k') :=
  ⟨reachable_sample123, remove_contract id 2 sample123 reachable_sample123 1⟩

/-- C4: in a state reached by the calls `ops`, for a key that is not currently
stored (never inserted, or removed since its last insert), `Find` reports not
found and `Remove` returns false and leaves the whole state as it was: the
directory, every bucket, the global depth and the bucket counter. `Find` is a
function of the state alone and so changes nothing either. -/
theorem absent_key_no_effect (hash : K → Nat) (size : Nat) (ops : List (Op K V))
    (s : ExtendibleHash K V) (hs : ReachableBy hash size ops s) (k : K)
    (hk : storedBy ops k = false) :
    Find hash s k = none ∧ Remove hash s k = (false, s) := by
  have h := find_isSome_eq_storedBy hs k
  rw [hk] at h
  have hnone : Find hash s k = none := by
    cases hf : Find hash s k with
    | none => rfl
    | some v => rw [hf] at h; exact Bool.noConfusion h
  exact ⟨hnone, remove_of_find_none hnone⟩

theorem absent_key_no_effect_witness :
    ReachableBy id 2 ops12 sample12 ∧ storedBy ops12 3 = false ∧
      Find id sample12 3 = none ∧ Remove id sample12 3 = (false, sample12) :=
  ⟨reachableBy_sample12, by decide,
    absent_key_no_effect id 2 ops12 sample12 reachableBy_sample12 3 (by decide)⟩

/-- C5 (the code at the failing inputs): `GetNumBuckets()` is 0 on a freshly
constructed index and still 0 after inserting keys 1 and 2 with capacity 2,
where the directory references one bucket; it is 1 after key 3 made the first
split, where the directory references two buckets. -/
theorem getNumBuckets_one_short :
    GetNumBuckets (init 2 : ExtendibleHash Nat Nat) = 0 ∧
    distinctBuckets (init 2 : ExtendibleHash Nat Nat) = 1 ∧
    Insert id 1 (init 2) 1 10 = some sample1 ∧ Insert id 1 sample1 2 20 = some sample12 ∧
    GetNumBuckets sample12 = 0 ∧ distinctBuckets sample12 = 1 ∧
    Insert id 2 sample12 3 30 = some sample123 ∧
    GetNumBuckets sample123 = 1 ∧ distinctBuckets sample123 = 2 := by
  decide

/-- C6: in every index state reachable from the constructor by `Insert` and
`Remove` calls, the directory length equals `2 ^ GetGlobalDepth()` and the local
depth of the bucket at every directory slot is at most `GetGlobalDepth()`. -/
theorem directory_invariant (hash : K → Nat) (size : Nat) (s : ExtendibleHash K V)
    (hs : Reachable hash size s) :
    s.bucketLists_.length = 2 ^ s.GetGlobalDepth ∧
    ∀ i, i < s.bucketLists_.length → s.GetLocalDepth i ≤ s.GetGlobalDepth :=
  ⟨(Inv.of_reachable hs).dirLen, (Inv.of_reachable hs).depth⟩

theorem directory_invariant_witness :
    Reachable id 2 sample123 ∧ sample123.bucketLists_.length = 2 ^ sample123.GetGlobalDepth ∧
    ∀ i, i < sample123.bucketLists_.length → sample123.GetLocalDepth i ≤ sample123.GetGlobalDepth :=
  ⟨reachable_sample123, directory_invariant id 2 sample123 reachable_sample123⟩

/-- C7: for an index constructed with bucket capacity `c`, after every completed
`Insert` or `Remove` call every bucket referenced by the directory holds at most
`c` entries; the entries of a bucket have pairwise distinct keys, so the length
of `items` is `items.size()`. It holds for every `c`. -/
theorem bucket_size_invariant (hash : K → Nat) (c : Nat) (s : ExtendibleHash K V)
    (hs : Reachable hash c s) :
    ∀ i, i < s.bucketLists_.length →
      (s.deref (s.slot i)).items.length ≤ c ∧
      ((s.deref (s.slot i)).items.map Prod.fst).Nodup := by
  obtain ⟨ops, hr⟩ := hs
  have hInv := Inv.of_reachableBy hr
  have hsz := bucketSz_of_reachableBy hr
  intro i hi
  exact ⟨hsz ▸ hInv.size i hi, hInv.nodup i hi⟩

theorem bucket_size_invariant_witness :
    Reachable id 2 sample123 ∧
    ∀ i, i < sample123.bucketLists_.length →
      (sample123.deref (sample123.slot i)).items.length ≤ 2 ∧
      ((sample123.deref (sample123.slot i)).items.map Prod.fst).Nodup :=
  ⟨reachable_sample123, bucket_size_invariant id 2 sample123 reachable_sample123⟩

/-- C9 (as stated, refuted): the constructor called with capacity 0 raises no error;
it returns an index with one empty bucket, on which `Insert(1, 1)` never reaches
the write branch. -/
theorem init_zero_not_rejected :
    (init 0 : ExtendibleHash Nat Nat) = ⟨0, 0, 0, [0], [⟨0, []⟩]⟩ ∧
      ∀ fuel, Insert id fuel (init 0 : ExtendibleHash Nat Nat) 1 1 = none :=
  ⟨rfl, fun fuel => insertLoop_capacity_zero id 1 1 fuel _ _ rfl
    (fun b hb => by
      have : b = ⟨0, []⟩ := by simpa [ExtendibleHash.init] using hb
      rw [this])⟩

/-- C9 (amended): the constructor accepts capacity 0 and returns an index with
capacity 0 and one empty bucket; on that index `Insert` of any key and value
runs the split loop without ever reaching the write branch. -/
theorem insert_never_returns_capacity_zero (hash : K → Nat) (key : K) (value : V) (fuel : Nat) :
    (init 0 : ExtendibleHash K V).bucketSz_ = 0 ∧
    (init 0 : ExtendibleHash K V).heap = [⟨0, []⟩] ∧
    Insert hash fuel (init 0) key value = none :=
  ⟨rfl, rfl, insertLoop_capacity_zero hash key value fuel _ _ rfl
    (fun b hb => by
      have : b = ⟨0, []⟩ := by simpa [ExtendibleHash.init] using hb
      rw [this])⟩

/-- C10: with bucket capacity 2 and the identity hash, after inserting keys 1 and
2 into a fresh index the global depth is 0; after then inserting key 3 the global
depth is 1, the directory length is 2, and `Find(1)`, `Find(2)`, `Find(3)` each
return the value inserted with that key. -/
theorem split_example (a b c : V) :
    ∃ s1 s2 s3 : ExtendibleHash Nat V,
      Insert id 1 (init 2) 1 a = some s1 ∧ Insert id 1 s1 2 b = some s2 ∧
      s2.GetGlobalDepth = 0 ∧
      Insert id 2 s2 3 c = some s3 ∧
      s3.GetGlobalDepth = 1 ∧ s3.bucketLists_.length = 2 ∧
      Find id s3 1 = some a ∧ Find id s3 2 = some b ∧ Find id s3 3 = some c := by
  refine ⟨⟨0, 0, 2, [0], [⟨0, [(1, a)]⟩]⟩, ⟨0, 0, 2, [0], [⟨0, [(1, a), (2, b)]⟩]⟩,
    ⟨1, 1, 2, [0, 1], [⟨1, [(2, b)]⟩, ⟨1, [(1, a), (3, c)]⟩]⟩, ?_, ?_, rfl, ?_, rfl, rfl,
    ?_, ?_, ?_⟩
  · simp [Insert, insertLoop, init, slot, deref, mapFind, mapSet]
  · simp [Insert, insertLoop, slot, deref, mapFind, mapSet]
  · simp [Insert, insertLoop, slot, deref, mapFind, mapSet, splitStep, List.mapIdx,
      List.mapIdx.go]
  · simp [Find, slot, deref, mapFind]
  · simp [Find, slot, deref, mapFind]
  · simp [Find, slot, deref, mapFind]

/-- C11: in every reachable index state, if the key is already present in its
addressed bucket (even when that bucket is full) or the addressed bucket holds
fewer than `bucketSz_` entries, `Insert(key, value)` returns after writing that
one entry: the global depth, the directory, the bucket counter and the capacity
are unchanged, every bucket keeps its local depth, every bucket other than the
addressed one is unchanged, the addressed bucket gets `items[key] = value`, and
`Find` gives the same result as before for every other key. -/
theorem insert_without_split (hash : K → Nat) (size : Nat) (s : ExtendibleHash K V)
    (hs : Reachable hash size s) (key : K) (value : V) (fuel : Nat)
    (hc : (mapFind (s.deref (s.slot (hash key &&& ((1 <<< s.globalDepth_) - 1)))).items
        key).isSome = true ∨
      (s.deref (s.slot (hash key &&& ((1 <<< s.globalDepth_) - 1)))).items.length
        < s.bucketSz_) :
    ∃ s', Insert hash (fuel + 1) s key value = some s' ∧
      s'.globalDepth_ = s.globalDepth_ ∧ s'.bucketLists_ = s.bucketLists_ ∧
      s'.numBuckets_ = s.numBuckets_ ∧ s'.bucketSz_ = s.bucketSz_ ∧
      s'.heap.length = s.heap.length ∧
      (∀ p, (s'.deref p).localDepth = (s.deref p).localDepth) ∧
      (∀ p, p ≠ s.slot (hash key &&& ((1 <<< s.globalDepth_) - 1)) →
        s'.deref p = s.deref p) ∧
      (s'.deref (s.slot (hash key &&& ((1 <<< s.globalDepth_) - 1)))).items =
        mapSet (s.deref (s.slot (hash key &&& ((1 <<< s.globalDepth_) - 1)))).items
          key value ∧
      ∀ k', k' ≠ key → Find hash s' k' = Find hash s k' := by
  have hInv := Inv.of_reachable hs
  have ha := hInv.addr_lt key
  have hv := hInv.valid _ ha
  have hins := insertLoop_write hash key value fuel s _ hc
  refine ⟨_, hins, rfl, rfl, rfl, rfl, by simp, ?_, ?_, ?_, ?_⟩
  · intro p
    by_cases hp : p = s.slot (hash key &&& ((1 <<< s.globalDepth_) - 1))
    · rw [hp, deref_set_self s _ _ hv]
    · rw [deref_set_ne s _ hp]
  · intro p hp
    exact deref_set_ne s _ hp
  · rw [deref_set_self s _ _ hv]
  · intro k' hne
    exact find_insertLoop_ne key value hne (fuel + 1) hInv hins

theorem insert_without_split_witness :
    Reachable id 2 sample1 ∧
    ∃ s', Insert id (0 + 1) sample1 2 20 = some s' ∧
      s'.globalDepth_ = sample1.globalDepth_ ∧ s'.bucketLists_ = sample1.bucketLists_ ∧
      s'.numBuckets_ = sample1.numBuckets_ ∧ s'.bucketSz_ = sample1.bucketSz_ ∧
      s'.heap.length = sample1.heap.length ∧
      (∀ p, (s'.deref p).localDepth = (sample1.deref p).localDepth) ∧
      (∀ p, p ≠ sample1.slot (id 2 &&& ((1 <<< sample1.globalDepth_) - 1)) →
        s'.deref p = sample1.deref p) ∧
      (s'.deref (sample1.slot (id 2 &&& ((1 <<< sample1.globalDepth_) - 1)))).items =
        mapSet (sample1.deref (sample1.slot (id 2 &&& ((1 <<< sample1.globalDepth_) - 1)))).items
          2 20 ∧
      ∀ k', k' ≠ 2 → Find id s' k' = Find id sample1 k' :=
  ⟨reachable_sample1, insert_without_split id 2 sample1 reachable_sample1 2 20 0
    (by decide)⟩

/-- C12: no operation ever decreases the global depth, the directory length, the
local depth of any bucket or the bucket counter: an `Insert` that returns leaves
each of them at least as large as before (and frees no bucket), and `Remove`
leaves the global depth, the directory with its slot-to-bucket assignment, all
local depths and the bucket counter exactly as they were, also when it empties a
bucket. `Find` is a function of the state and changes nothing. -/
theorem monotone_growth (hash : K → Nat) (s : ExtendibleHash K V) (key : K) :
    (∀ (value : V) (fuel : Nat) (s' : ExtendibleHash K V),
      Insert hash fuel s key value = some s' →
      s.globalDepth_ ≤ s'.globalDepth_ ∧ s.bucketLists_.length ≤ s'.bucketLists_.length ∧
      s.numBuckets_ ≤ s'.numBuckets_ ∧ s.heap.length ≤ s'.heap.length ∧
      ∀ p, (s.deref p).localDepth ≤ (s'.deref p).localDepth) ∧
    ((Remove hash s key).2.globalDepth_ = s.globalDepth_ ∧
      (Remove hash s key).2.bucketLists_ = s.bucketLists_ ∧
      (Remove hash s key).2.numBuckets_ = s.numBuckets_ ∧
      (Remove hash s key).2.heap.length = s.heap.length ∧
      ∀ p, ((Remove hash s key).2.deref p).localDepth = (s.deref p).localDepth) :=
  ⟨fun value fuel _ h => insertLoop_monotone key value fuel _ h, remove_frame hash s key⟩

theorem monotone_growth_witness :
    Insert id 2 sample12 3 30 = some sample123 ∧
      sample12.globalDepth_ ≤ sample123.globalDepth_ ∧
      sample12.bucketLists_.length ≤ sample123.bucketLists_.length ∧
      sample12.numBuckets_ ≤ sample123.numBuckets_ ∧
      sample12.heap.length ≤ sample123.heap.length ∧
      ∀ p, (sample12.deref p).localDepth ≤ (sample123.deref p).localDepth :=
  ⟨insert_sample12, (monotone_growth id sample12 3).1 30 2 sample123 insert_sample12⟩

/-- C17: in every reachable index state, for every bucket referenced by the
directory, the number of directory slots that reference that bucket equals
`2 ^ (globalDepth - localDepth)` of that bucket. -/
theorem slot_sharing (hash : K → Nat) (size : Nat) (s : ExtendibleHash K V)
    (hs : Reachable hash size s) (a : Nat) (ha : a < s.bucketLists_.length) :
    s.bucketLists_.count (s.slot a) = 2 ^ (s.GetGlobalDepth - s.GetLocalDepth a) :=
  count_slot (Inv.of_reachable hs) (alias_of_reachable hs) ha

theorem slot_sharing_witness :
    Reachable id 2 sample123 ∧ 1 < sample123.bucketLists_.length ∧
      sample123.bucketLists_.count (sample123.slot 1)
        = 2 ^ (sample123.GetGlobalDepth - sample123.GetLocalDepth 1) :=
  ⟨reachable_sample123, by decide,
    slot_sharing id 2 sample123 reachable_sample123 1 (by decide)⟩

/-- C18 (as stated, refuted): with capacity 1 and the identity hash, in the
reachable state that stores key 0, `Insert(2, 0)` finds the addressed bucket full
and splits it, and after that split step the original bucket still holds its one
entry, not strictly fewer. -/
theorem split_without_progress :
    Reachable id 1 full1 ∧ 1 ≤ full1.bucketSz_ ∧
    ¬ ((mapFind (full1.deref (full1.slot (id 2 &&& ((1 <<< full1.globalDepth_) - 1)))).items
        2).isSome = true ∨
      (full1.deref (full1.slot (id 2 &&& ((1 <<< full1.globalDepth_) - 1)))).items.length
        < full1.bucketSz_) ∧
    ¬ (((splitStep id full1 (full1.slot (id 2 &&& ((1 <<< full1.globalDepth_) - 1)))).deref
        (full1.slot (id 2 &&& ((1 <<< full1.globalDepth_) - 1)))).items.length
      < (full1.deref (full1.slot (id 2 &&& ((1 <<< full1.globalDepth_) - 1)))).items.length) := by
  refine ⟨reachable_full1_id, ?_, ?_, ?_⟩ <;> decide

/-- C18 (amended): in every reachable index state in which `Insert` splits a full
bucket (the key is absent from its addressed bucket, which is at capacity), the
loop goes on with the state after the split, and after that single split step the
original bucket and the new sibling together hold exactly the entries the full
bucket held: the original keeps, unchanged and in order, the entries whose hash
has the bit `1 << localDepth` clear, the sibling gets those with the bit set, and
the two lists together are a rearrangement of the old entries. So the two sizes
add up to the old size and each of the two buckets holds at most as many entries
as the full bucket held. -/
theorem split_partitions_entries (hash : K → Nat) (size : Nat) (s : ExtendibleHash K V)
    (hs : Reachable hash size s) (key : K) (value : V) (fuel : Nat)
    (hfull : ¬ ((mapFind (s.deref (s.slot (hash key &&& ((1 <<< s.globalDepth_) - 1)))).items
        key).isSome = true ∨
      (s.deref (s.slot (hash key &&& ((1 <<< s.globalDepth_) - 1)))).items.length
        < s.bucketSz_)) :
    Insert hash (fuel + 1) s key value =
      insertLoop hash key value fuel
        (splitStep hash s (s.slot (hash key &&& ((1 <<< s.globalDepth_) - 1))))
        ((splitStep hash s (s.slot (hash key &&& ((1 <<< s.globalDepth_) - 1)))).slot
          (hash key &&& ((1 <<<
            (splitStep hash s
              (s.slot (hash key &&& ((1 <<< s.globalDepth_) - 1)))).globalDepth_) - 1))) ∧
    ((splitStep hash s (s.slot (hash key &&& ((1 <<< s.globalDepth_) - 1)))).deref
        (s.slot (hash key &&& ((1 <<< s.globalDepth_) - 1)))).items.length
      + ((splitStep hash s (s.slot (hash key &&& ((1 <<< s.globalDepth_) - 1)))).deref
        s.heap.length).items.length
      = (s.deref (s.slot (hash key &&& ((1 <<< s.globalDepth_) - 1)))).items.length ∧
    ((splitStep hash s (s.slot (hash key &&& ((1 <<< s.globalDepth_) - 1)))).deref
        (s.slot (hash key &&& ((1 <<< s.globalDepth_) - 1)))).items.length
      ≤ (s.deref (s.slot (hash key &&& ((1 <<< s.globalDepth_) - 1)))).items.length ∧
    ((splitStep hash s (s.slot (hash key &&& ((1 <<< s.globalDepth_) - 1)))).deref
        s.heap.length).items.length
      ≤ (s.deref (s.slot (hash key &&& ((1 <<< s.globalDepth_) - 1)))).items.length ∧
    ((splitStep hash s (s.slot (hash key &&& ((1 <<< s.globalDepth_) - 1)))).deref
        (s.slot (hash key &&& ((1 <<< s.globalDepth_) - 1)))).items
      = (s.deref (s.slot (hash key &&& ((1 <<< s.globalDepth_) - 1)))).items.filter
        (fun p => ¬ (hash p.1 &&& (1 <<< (s.deref (s.slot (hash key &&& ((1 <<< s.globalDepth_) - 1)))).localDepth) ≠ 0)) ∧
    ((splitStep hash s (s.slot (hash key &&& ((1 <<< s.globalDepth_) - 1)))).deref
        s.heap.length).items
      = (s.deref (s.slot (hash key &&& ((1 <<< s.globalDepth_) - 1)))).items.filter
        (fun p => hash p.1 &&& (1 <<< (s.deref (s.slot (hash key &&& ((1 <<< s.globalDepth_) - 1)))).localDepth) ≠ 0) ∧
    List.Perm
      (((splitStep hash s (s.slot (hash key &&& ((1 <<< s.globalDepth_) - 1)))).deref
        (s.slot (hash key &&& ((1 <<< s.globalDepth_) - 1)))).items
        ++ ((splitStep hash s (s.slot (hash key &&& ((1 <<< s.globalDepth_) - 1)))).deref
        s.heap.length).items)
      (s.deref (s.slot (hash key &&& ((1 <<< s.globalDepth_) - 1)))).items := by
  have hInv := Inv.of_reachable hs
  have hv := hInv.valid _ (hInv.addr_lt key)
  have hp := splitStep_partition hash s _ hv
  refine ⟨?_, hp, by omega, by omega, ?_, ?_, splitStep_perm hash s _ hv⟩
  · unfold Insert
    simp only
    rw [ExtendibleHash.insertLoop]
    simp only
    rw [if_neg hfull]
  · rw [splitStep_deref_ptr hash s _ hv]
  · rw [splitStep_deref_new]

theorem split_partitions_entries_witness :
    Reachable id 2 sample12 ∧
    ¬ ((mapFind (sample12.deref (sample12.slot (id 3 &&& ((1 <<< sample12.globalDepth_) - 1)))).items
        3).isSome = true ∨
      (sample12.deref (sample12.slot (id 3 &&& ((1 <<< sample12.globalDepth_) - 1)))).items.length
        < sample12.bucketSz_) ∧
    List.Perm
      (((splitStep id sample12 (sample12.slot (id 3 &&& ((1 <<< sample12.globalDepth_) - 1)))).deref
          (sample12.slot (id 3 &&& ((1 <<< sample12.globalDepth_) - 1)))).items
        ++ ((splitStep id sample12 (sample12.slot (id 3 &&& ((1 <<< sample12.globalDepth_) - 1)))).deref
          sample12.heap.length).items)
      (sample12.deref (sample12.slot (id 3 &&& ((1 <<< sample12.globalDepth_) - 1)))).items :=
  ⟨reachable_sample12, by decide,
    (split_partitions_entries id 2 sample12 reachable_sample12 3 30 1 (by decide)).2.2.2.2.2.2⟩

/-- C20: in every reachable index state, for every directory slot `i` and every
key `k` stored in the bucket at slot `i`, the low `localDepth` bits of `hash k`
equal the low `localDepth` bits of `i`; the bucket at the slot
`hash k & (2 ^ globalDepth - 1)` that `Find` reads is that same bucket; the slot
addressed by any key lies within the directory; and a key stored in the buckets of
two slots is stored in one and the same bucket. -/
theorem addressing_consistency (hash : K → Nat) (size : Nat) (s : ExtendibleHash K V)
    (hs : Reachable hash size s) :
    (∀ i, i < s.bucketLists_.length → ∀ e, e ∈ (s.deref (s.slot i)).items →
      hash e.1 % 2 ^ s.GetLocalDepth i = i % 2 ^ s.GetLocalDepth i) ∧
    (∀ i, i < s.bucketLists_.length → ∀ e, e ∈ (s.deref (s.slot i)).items →
      s.slot (hash e.1 &&& ((1 <<< s.globalDepth_) - 1)) = s.slot i) ∧
    (∀ k, hash k &&& ((1 <<< s.globalDepth_) - 1) < s.bucketLists_.length) ∧
    (∀ i j, i < s.bucketLists_.length → j < s.bucketLists_.length →
      ∀ e e', e ∈ (s.deref (s.slot i)).items → e' ∈ (s.deref (s.slot j)).items →
      e.1 = e'.1 → s.slot i = s.slot j) := by
  have hInv := Inv.of_reachable hs
  have hA := alias_of_reachable hs
  have hfind : ∀ i, i < s.bucketLists_.length → ∀ e, e ∈ (s.deref (s.slot i)).items →
      s.slot (hash e.1 &&& ((1 <<< s.globalDepth_) - 1)) = s.slot i := by
    intro i hi e he
    have h1 := hInv.addr i hi e he
    refine (hA i _ hi (hInv.addr_lt e.1) ?_).symm
    rw [addr_eq_mod, mod_pow_of_le _ (hInv.depth i hi)]
    exact h1.symm
  refine ⟨hInv.addr, hfind, hInv.addr_lt, ?_⟩
  intro i j hi hj e e' he he' hk
  rw [← hfind i hi e he, ← hfind j hj e' he', hk]

theorem addressing_consistency_witness :
    Reachable id 2 sample123 ∧
    ((∀ i, i < sample123.bucketLists_.length → ∀ e, e ∈ (sample123.deref (sample123.slot i)).items →
      id e.1 % 2 ^ sample123.GetLocalDepth i = i % 2 ^ sample123.GetLocalDepth i) ∧
    (∀ i, i < sample123.bucketLists_.length → ∀ e, e ∈ (sample123.deref (sample123.slot i)).items →
      sample123.slot (id e.1 &&& ((1 <<< sample123.globalDepth_) - 1)) = sample123.slot i) ∧
    (∀ k, id k &&& ((1 <<< sample123.globalDepth_) - 1) < sample123.bucketLists_.length) ∧
    (∀ i j, i < sample123.bucketLists_.length → j < sample123.bucketLists_.length →
      ∀ e e', e ∈ (sample123.deref (sample123.slot i)).items →
      e' ∈ (sample123.deref (sample123.slot j)).items →
      e.1 = e'.1 → sample123.slot i = sample123.slot j)) :=
  ⟨reachable_sample123, addressing_consistency id 2 sample123 reachable_sample123⟩

end

end ExtendibleHash

/-! ## Lemmas on the replacer -/

namespace LRUReplacer

variable {T : Type u}

theorem lru_inv_victim {s s' : LRUReplacer T} {r : Option T}
    (h : s._sz = s._replacer.length ∧ s._replacer.Nodup) (hv : Victim s = some (r, s')) :
    s'._sz = s'._replacer.length ∧ s'._replacer.Nodup := by
  obtain ⟨hsz, hnd⟩ := h
  unfold Victim at hv
  split at hv
  · injection hv with hv
    injection hv with _ hv
    subst hv
    exact ⟨hsz, hnd⟩
  · cases hl : s._replacer with
    | nil => rw [hl] at hv; simp at hv
    | cons x rest =>
      rw [hl] at hv hsz hnd
      simp only [Option.some.injEq, Prod.mk.injEq] at hv
      obtain ⟨_, hv⟩ := hv
      subst hv
      refine ⟨?_, (List.nodup_cons.1 hnd).2⟩
      simp only [List.length_cons] at hsz
      show s._sz - 1 = rest.length
      omega

/-- With the counter equal to the length of the list, as many `Victim` calls as
there are values return the values front first and empty the replacer. -/
theorem victims_all (l : List T) :
    victims l.length { _replacer := l, _sz := l.length } = some (l.map some, new) := by
  induction l with
  | nil => rfl
  | cons x rest ih =>
    simp only [victims, Victim, List.length_cons, Nat.add_one_ne_zero, if_false,
      Nat.add_sub_cancel, ih, List.map_cons]

theorem victims_all_and_one (l : List T) :
    victims (l.length + 1) { _replacer := l, _sz := l.length }
      = some (l.map some ++ [none], new) := by
  induction l with
  | nil => rfl
  | cons x rest ih =>
    rw [victims, Victim]
    simp only [List.length_cons, Nat.add_one_ne_zero, if_false, Nat.add_sub_cancel, ih,
      List.map_cons, List.cons_append]

section

variable [DecidableEq T]

theorem lru_inv_insert {s : LRUReplacer T} (value : T)
    (h : s._sz = s._replacer.length ∧ s._replacer.Nodup) :
    (Insert s value)._sz = (Insert s value)._replacer.length ∧
      (Insert s value)._replacer.Nodup := by
  obtain ⟨hsz, hnd⟩ := h
  unfold Insert
  split
  · rename_i hmem
    refine ⟨?_, ?_⟩
    · have hpos : 0 < s._replacer.length := List.length_pos_of_mem hmem
      simp only [List.length_append, List.length_erase_of_mem hmem, List.length_singleton]
      omega
    · rw [List.nodup_append]
      refine ⟨hnd.erase _, List.nodup_singleton _, ?_⟩
      intro x hx hx'
      rw [List.mem_singleton] at hx'
      subst hx'
      exact hnd.not_mem_erase hx
  · rename_i hmem
    refine ⟨by simp [hsz], ?_⟩
    rw [List.nodup_append]
    refine ⟨hnd, List.nodup_singleton _, ?_⟩
    intro x hx hx'
    rw [List.mem_singleton] at hx'
    subst hx'
    exact hmem hx

theorem lru_inv_erase {s : LRUReplacer T} (value : T)
    (h : s._sz = s._replacer.length ∧ s._replacer.Nodup) :
    (Erase s value).2._sz = (Erase s value).2._replacer.length ∧
      (Erase s value).2._replacer.Nodup := by
  obtain ⟨hsz, hnd⟩ := h
  unfold Erase
  split
  · rename_i hmem
    refine ⟨?_, hnd.erase _⟩
    simp only [List.length_erase_of_mem hmem]
    omega
  · exact ⟨hsz, hnd⟩

theorem lru_inv_of_reachable {s : LRUReplacer T} (h : Reachable s) :
    s._sz = s._replacer.length ∧ s._replacer.Nodup := by
  induction h with
  | init => exact ⟨rfl, List.nodup_nil⟩
  | insert value _ ih => exact lru_inv_insert value ih
  | victim _ hv ih => exact lru_inv_victim ih hv
  | erase value _ ih => exact lru_inv_erase value ih

theorem erase_eq_filter_ne {l : List T} (hnd : l.Nodup) (v : T) :
    l.erase v = l.filter (fun x => x ≠ v) := by
  rw [hnd.erase_eq_filter]
  apply List.filter_congr
  intro x _
  by_cases h : x = v <;> simp [h]

/-- Inserting values that are not yet tracked and pairwise distinct appends them in
order. -/
theorem insertAll_fresh (values : List T) :
    ∀ s : LRUReplacer T, (s._replacer ++ values).Nodup →
      insertAll s values = { _replacer := s._replacer ++ values, _sz := s._sz + values.length } := by
  induction values with
  | nil => intro s _; simp [insertAll]
  | cons x rest ih =>
    intro s hnd
    have hx : x ∉ s._replacer := by
      intro hx
      rw [List.nodup_append] at hnd
      exact hnd.2.2 hx (List.mem_cons_self _ _)
    have h1 : Insert s x = { _replacer := s._replacer ++ [x], _sz := s._sz + 1 } := by
      unfold Insert; rw [if_neg hx]
    have h2 := ih (Insert s x) (by rw [h1]; simpa using hnd)
    unfold insertAll at h2 ⊢
    rw [List.foldl_cons, h2, h1]
    simp only [List.append_assoc, List.singleton_append, List.length_cons, mk.injEq, true_and]
    omega

theorem reachable_lru123 : Reachable lru123 := by
  have h : Reachable (Insert (Insert (Insert (new : LRUReplacer Nat) 1) 2) 3) :=
    Reachable.insert 3 (Reachable.insert 2 (Reachable.insert 1 Reachable.init))
  have e : Insert (Insert (Insert (new : LRUReplacer Nat) 1) 2) 3 = lru123 := by decide
  rw [e] at h
  exact h

/-! ## The claims on the replacer -/

/-- C13: for every list of pairwise distinct values inserted in that order into an
empty replacer with no other call in between, the next `n` `Victim` calls each
return true and yield the values in insertion order, and the `Victim` call after
them returns false and leaves the replacer unchanged: empty, with `Size() = 0`. -/
theorem lru_fifo_order (values : List T) (hnd : values.Nodup) :
    victims values.length (insertAll new values) = some (values.map some, new) ∧
    victims (values.length + 1) (insertAll new values)
      = some (values.map some ++ [none], new) ∧
    Victim (new : LRUReplacer T) = some (none, new) ∧
    (new : LRUReplacer T)._replacer = [] ∧ Size (new : LRUReplacer T) = 0 := by
  have h := insertAll_fresh values (new : LRUReplacer T) (by simpa [new] using hnd)
  have h' : insertAll new values = ({ _replacer := values, _sz := values.length } :
      LRUReplacer T) := by
    rw [h]; simp [new]
  rw [h']
  exact ⟨victims_all values, victims_all_and_one values, rfl, rfl, rfl⟩

theorem lru_fifo_order_witness :
    ([1, 2, 3] : List Nat).Nodup ∧
    victims 3 (insertAll new [1, 2, 3]) = some ([some 1, some 2, some 3], new) :=
  ⟨by decide, (lru_fifo_order [1, 2, 3] (by decide)).1⟩

/-- C14: in every reachable replacer state, when `v` is already tracked,
`Insert(v)` yields the previous sequence with `v` removed and `v` appended at the
most-recent end, with `Size()` unchanged; when `v` is not tracked, `Insert(v)`
appends `v` at the most-recent end and `Size()` grows by exactly one. So for three
different values `a`, `b`, `c`, inserting `a`, `b`, `c` and then `a` again makes
the victim sequence `b`, `c`, `a`. -/
theorem lru_touch (s : LRUReplacer T) (hs : Reachable s) (v a b c : T)
    (hab : a ≠ b) (hac : a ≠ c) (hbc : b ≠ c) :
    (v ∈ s._replacer →
      (Insert s v)._replacer = s._replacer.filter (fun x => x ≠ v) ++ [v] ∧
      Size (Insert s v) = Size s) ∧
    (v ∉ s._replacer →
      (Insert s v)._replacer = s._replacer ++ [v] ∧ Size (Insert s v) = Size s + 1) ∧
    victims 3 (insertAll new [a, b, c, a]) = some ([some b, some c, some a], new) := by
  have hinv := lru_inv_of_reachable hs
  refine ⟨?_, ?_, ?_⟩
  · intro hv
    unfold Insert Size
    rw [if_pos hv, erase_eq_filter_ne hinv.2]
    exact ⟨rfl, rfl⟩
  · intro hv
    unfold Insert Size
    rw [if_neg hv]
    exact ⟨rfl, rfl⟩
  · have h1 : insertAll (new : LRUReplacer T) [a, b, c, a]
        = { _replacer := [b, c, a], _sz := 3 } := by
      simp [insertAll, Insert, new, hab, hac, hbc, Ne.symm hab, Ne.symm hac, Ne.symm hbc]
    rw [h1]
    exact victims_all [b, c, a]

theorem lru_touch_witness :
    Reachable lru123 ∧ (1 : Nat) ≠ 2 ∧ (1 : Nat) ≠ 3 ∧ (2 : Nat) ≠ 3 ∧
    (2 ∈ lru123._replacer →
      (Insert lru123 2)._replacer = lru123._replacer.filter (fun x => x ≠ 2) ++ [2] ∧
      Size (Insert lru123 2) = Size lru123) ∧
    (2 ∉ lru123._replacer →
      (Insert lru123 2)._replacer = lru123._replacer ++ [2] ∧
      Size (Insert lru123 2) = Size lru123 + 1) ∧
    victims 3 (insertAll new [1, 2, 3, 1]) = some ([some 2, some 3, some 1], new) :=
  ⟨reachable_lru123, by decide, by decide, by decide,
    lru_touch lru123 reachable_lru123 2 1 2 3 (by decide) (by decide) (by decide)⟩

/-- C15: in every reachable replacer state, `Erase(v)` returns true exactly when
`v` was tracked; when true, `v` is no longer tracked afterwards, `Size()` has
decreased by exactly one and the other values keep their relative order; when
false, the state is unchanged. So for two different values `a`, `b`, after
inserting `a`, `b`: `Erase(a)` is true, the next `Victim` yields `b`, and a second
`Erase(a)` is false and changes nothing. -/
theorem lru_erase (s : LRUReplacer T) (hs : Reachable s) (v a b : T) (hab : a ≠ b) :
    ((Erase s v).1 = true ↔ v ∈ s._replacer) ∧
    (v ∈ s._replacer →
      v ∉ (Erase s v).2._replacer ∧ Size (Erase s v).2 + 1 = Size s ∧
      (Erase s v).2._replacer = s._replacer.filter (fun x => x ≠ v)) ∧
    ((Erase s v).1 = false → (Erase s v).2 = s) ∧
    (Erase (insertAll new [a, b]) a = (true, { _replacer := [b], _sz := 1 }) ∧
      Victim ({ _replacer := [b], _sz := 1 } : LRUReplacer T) = some (some b, new) ∧
      Erase (new : LRUReplacer T) a = (false, new)) := by
  have hinv := lru_inv_of_reachable hs
  refine ⟨?_, ?_, ?_, ?_, ?_, ?_⟩
  · unfold Erase
    split <;> simp_all
  · intro hv
    have hpos : 0 < s._replacer.length := List.length_pos_of_mem hv
    unfold Erase Size
    rw [if_pos hv]
    refine ⟨hinv.2.not_mem_erase, ?_, erase_eq_filter_ne hinv.2 v⟩
    show s._sz - 1 + 1 = s._sz
    omega
  · unfold Erase
    split
    · intro h; exact Bool.noConfusion h
    · intro _; rfl
  · simp [insertAll, Insert, Erase, new, hab, Ne.symm hab]
  · rfl
  · rfl

theorem lru_erase_witness :
    Reachable lru123 ∧ (1 : Nat) ≠ 2 ∧
    (((Erase lru123 2).1 = true ↔ 2 ∈ lru123._replacer) ∧
    (2 ∈ lru123._replacer →
      2 ∉ (Erase lru123 2).2._replacer ∧ Size (Erase lru123 2).2 + 1 = Size lru123 ∧
      (Erase lru123 2).2._replacer = lru123._replacer.filter (fun x => x ≠ 2)) ∧
    ((Erase lru123 2).1 = false → (Erase lru123 2).2 = lru123) ∧
    (Erase (insertAll new [1, 2]) 1 = (true, { _replacer := [2], _sz := 1 }) ∧
      Victim ({ _replacer := [2], _sz := 1 } : LRUReplacer Nat) = some (some 2, new) ∧
      Erase (new : LRUReplacer Nat) 1 = (false, new))) :=
  ⟨reachable_lru123, by decide, lru_erase lru123 reachable_lru123 2 1 2 (by decide)⟩

/-- C16: in every replacer state reachable from the empty replacer by `Insert`,
`Victim` and `Erase` calls, `Size()` (the counter `_sz`) equals the length of the
recency list; hence `Victim` never reads the front of an empty list, and it never
reports empty for a non-empty list. -/
theorem lru_size_is_length (s : LRUReplacer T) (hs : Reachable s) :
    Size s = s._replacer.length ∧ Victim s ≠ none ∧
    ∀ s', Victim s = some (none, s') → s._replacer = [] := by
  have hinv := lru_inv_of_reachable hs
  refine ⟨hinv.1, ?_, ?_⟩
  · unfold Victim
    split
    · simp
    · rename_i hz
      cases hl : s._replacer with
      | nil => rw [hinv.1, hl] at hz; exact absurd rfl hz
      | cons x rest => simp
  · intro s' hv
    unfold Victim at hv
    split at hv
    · rename_i hz
      rw [hinv.1] at hz
      exact List.eq_nil_of_length_eq_zero hz
    · cases hl : s._replacer with
      | nil => rfl
      | cons x rest => rw [hl] at hv; simp at hv

theorem lru_size_is_length_witness :
    Reachable lru123 ∧ Size lru123 = lru123._replacer.length ∧ Victim lru123 ≠ none ∧
    ∀ s', Victim lru123 = some (none, s') → lru123._replacer = [] :=
  ⟨reachable_lru123, lru_size_is_length lru123 reachable_lru123⟩

/-- C19: in every replacer state reachable from the empty replacer by `Insert`,
`Victim` and `Erase` calls, no value appears twice in the recency list. -/
theorem lru_distinct (s : LRUReplacer T) (hs : Reachable s) : s._replacer.Nodup :=
  (lru_inv_of_reachable hs).2

theorem lru_distinct_witness : Reachable lru123 ∧ lru123._replacer.Nodup :=
  ⟨reachable_lru123, lru_distinct lru123 reachable_lru123⟩

end

end LRUReplacer

end cmudb
